import Mathlib

/-! # Pipeline editor: graph store and DAG validator

A shallow embedding of the graph logic of `src/PipelineEditor.jsx`
(component `PipelineFlow`): the React state `nodes`, `edges`,
`nodeIdCounter`, `invalidConnection`, the handlers that change it
(`onConnect`, `handleCreateNode`, `handleDeleteNode`, `handleKeyDown`) and the
memoised validator `dagStatus` with its recursive helper `dfsVisit`.

Modelling conventions.
* Ids are JavaScript strings, here `String`.  A React Flow node carries
  `id`, `data.label`, `data.type` and the flag `selected`; an edge carries
  `id`, `source`, `target` and `selected`.  A missing `selected` is falsy and
  is modelled by `false`.  The canvas position of a node (drawn with
  `Math.random`) is presentation state and is not part of the model.
* A JavaScript `Set` of strings is an insertion-ordered list without
  repetitions (`setAdd`, `setDelete`, membership, length for `size`).
* The plain object `adjacencyList = {}` is a `JsObject`: its own properties
  (an insertion-ordered association list) and its prototype.  A read
  `adjacencyList[k]` (`objRead`) looks at the own properties first and then at
  the prototype chain, so the twelve names every plain object inherits from
  `Object.prototype` read as truthy values that are neither arrays nor
  iterable; using one where the source expects an array throws a `TypeError`.
  The write `adjacencyList["__proto__"] = []` replaces the prototype by that
  array.  What a read then finds through the array (its indices, its `length`,
  the methods of `Array.prototype`, which differ between engines) is not
  modelled: such a run ends in `Thrown.unmodelled`.
* `dfsVisit` is recursive in the source and runs on the bounded call stack of
  the engine.  The embedding takes the number of nested calls of `dfsVisit`
  the stack admits as a parameter (`stackDepth`); a call beyond it throws a
  `RangeError`.
* The listener `handleCreateNode` is a closure: it reads `nodeIdCounter` as it
  was at the render that registered it (`capturedNodeIdCounter`) and
  increments the live state.  `commitRender` is the re-render after which the
  effect registers a listener over the current counter.
* `nodeIdCounter` is a JavaScript number; `incrementCounter` is `prev + 1` on
  it, exact below `2^53` and without effect at `2^53`.
-/

namespace PipelineEditor

/-! ## Data model -/

/-- A React Flow node as used by the editor. -/
structure Node where
  id : String
  label : String
  nodeType : String
  selected : Bool
deriving DecidableEq, Repr

/-- A React Flow edge as used by the editor. -/
structure Edge where
  id : String
  source : String
  target : String
  selected : Bool
deriving DecidableEq, Repr

/-- The object returned by the `dagStatus` memo. -/
structure DagStatus where
  isValidDAG : Bool
  hasMinimumNodes : Bool
  noCycles : Bool
  allNodesConnected : Bool
  nodeCount : Nat
  edgeCount : Nat
deriving DecidableEq, Repr

/-! ## JavaScript `Set` and plain-object primitives -/

/-- The call `s.add(x)` on a `Set`: a no-op when `x` is present, otherwise `x` is
appended in insertion order. -/
def setAdd (s : List String) (x : String) : List String :=
  if x ∈ s then s else s ++ [x]

/-- The call `s.delete(x)` on a `Set`. -/
def setDelete (s : List String) (x : String) : List String :=
  s.filter (fun y => decide (y ≠ x))

/-- What a run of JavaScript ends in when it does not return: a `TypeError`, a
`RangeError` (call stack exhausted), or a step the embedding does not cover. -/
inductive Thrown where
  | typeError
  | rangeError
  | unmodelled
deriving DecidableEq, Repr

/-- The result of running a piece of JavaScript: a returned value or a thrown
error. -/
inductive Outcome (α : Type) where
  | returned (value : α)
  | threw (error : Thrown)
deriving DecidableEq, Repr

/-- The own-property names of `Object.prototype`, which every plain object
inherits. -/
def objectPrototypeKeys : List String :=
  ["constructor", "__defineGetter__", "__defineSetter__", "hasOwnProperty",
    "__lookupGetter__", "__lookupSetter__", "isPrototypeOf",
    "propertyIsEnumerable", "toString", "valueOf", "__proto__", "toLocaleString"]

/-- The object `adjacencyList`: its own properties, each bound to an array of
ids, and its prototype, which is `Object.prototype` (`none`) until a write to
`__proto__` installs an array (`some`). -/
structure JsObject where
  own : List (String × List String)
  proto : Option (List String)
deriving DecidableEq, Repr

/-- The value of a read `adjacencyList[k]`. -/
inductive Lookup where
  | array (elements : List String)
  | undefined
  | inherited
  | unmodelled
deriving DecidableEq, Repr

/-- Own-property lookup, the first step of a read. -/
def getOwn {α : Type} : List (String × α) → String → Option α
  | [], _ => none
  | (k', v') :: rest, k => if k' = k then some v' else getOwn rest k

/-- Definition of an own property: an existing one is overwritten in place,
otherwise a new one is appended. -/
def setOwn {α : Type} : List (String × α) → String → α → List (String × α)
  | [], k, v => [(k, v)]
  | (k', v') :: rest, k, v =>
    if k' = k then (k, v) :: rest else (k', v') :: setOwn rest k v

/-- The read `adjacencyList[k]`.  An own property gives its array.  Otherwise
the prototype chain answers: `__proto__` gives the prototype itself (the
installed array, or the object `Object.prototype`), any other name of
`Object.prototype` gives a function, and any further name gives `undefined`
when the prototype is `Object.prototype`.  A function and `Object.prototype`
are both truthy, have no `push` and are not iterable: `Lookup.inherited`. -/
def objRead (o : JsObject) (k : String) : Lookup :=
  match getOwn o.own k with
  | some elements => Lookup.array elements
  | none =>
    if k = "__proto__" then
      match o.proto with
      | some elements => Lookup.array elements
      | none => Lookup.inherited
    else if k ∈ objectPrototypeKeys then Lookup.inherited
    else
      match o.proto with
      | none => Lookup.undefined
      | some _ => Lookup.unmodelled

/-- The write `adjacencyList[k] = []` (source line 427): it defines an own
property, except for `k = "__proto__"`, where the inherited setter makes the
new array the prototype of the object. -/
def objAssignEmpty (o : JsObject) (k : String) : JsObject :=
  if k = "__proto__" then { o with proto := some [] }
  else { o with own := setOwn o.own k [] }

/-- The call `adjacencyList[k].push(target)` when the read gave an array: the
array is an own property or, for `k = "__proto__"`, the installed prototype. -/
def objPush (o : JsObject) (k target : String) : JsObject :=
  match getOwn o.own k with
  | some elements => { o with own := setOwn o.own k (elements ++ [target]) }
  | none =>
    match o.proto with
    | some elements => { o with proto := some (elements ++ [target]) }
    | none => o

/-! ## The validator `dagStatus` -/

/-- The body of `edges.forEach` at source lines 430-434: when the read of
`adjacencyList[edge.source]` is truthy, `push` is called on it. -/
def addTarget (o : JsObject) (edge : Edge) : Outcome JsObject :=
  match objRead o edge.source with
  | Lookup.array _ => Outcome.returned (objPush o edge.source edge.target)
  | Lookup.undefined => Outcome.returned o
  | Lookup.inherited => Outcome.threw Thrown.typeError
  | Lookup.unmodelled => Outcome.threw Thrown.unmodelled

/-- The loop `edges.forEach` at source lines 430-434; a throw ends it. -/
def addTargets : List Edge → JsObject → Outcome JsObject
  | [], o => Outcome.returned o
  | edge :: rest, o =>
    match addTarget o edge with
    | Outcome.threw t => Outcome.threw t
    | Outcome.returned o' => addTargets rest o'

/-- The two `forEach` loops that fill `adjacencyList` (source lines 425-434):
every node id is bound to a fresh empty array, then every edge whose source
reads as truthy pushes its target. -/
def buildAdjacency (nodes : List Node) (edges : List Edge) : Outcome JsObject :=
  addTargets edges
    (nodes.foldl (fun adj node => objAssignEmpty adj node.id)
      { own := [], proto := none })

/-- The mutable variables shared by `dfsVisit` and the loop that calls it. -/
structure DfsState where
  visited : List String
  recStack : List String
  hasCycles : Bool
deriving DecidableEq, Repr

/-- The loop `for (const neighbor of adjacencyList[nodeId])` inside `dfsVisit`:
the first neighbour whose visit answers `true` sets `hasCycles` and makes the
enclosing call return `true`; `false` means the loop ran to its end. -/
def visitNeighbors (visit : String → DfsState → Outcome (Bool × DfsState)) :
    List String → DfsState → Outcome (Bool × DfsState)
  | [], st => Outcome.returned (false, st)
  | neighbor :: rest, st =>
    match visit neighbor st with
    | Outcome.threw t => Outcome.threw t
    | Outcome.returned (true, st') =>
      Outcome.returned (true, { st' with hasCycles := true })
    | Outcome.returned (false, st') => visitNeighbors visit rest st'

/-- The recursive `dfsVisit` of the source (lines 440-458).  The first argument
is the number of nested calls the call stack still admits; with none left the
call throws a `RangeError`.  A truthy `adjacencyList[nodeId]` that is not an
array cannot be iterated by `for ... of`, which throws a `TypeError`. -/
def dfsVisit (adjacencyList : JsObject) :
    Nat → String → DfsState → Outcome (Bool × DfsState)
  | 0, _, _ => Outcome.threw Thrown.rangeError
  | depth + 1, nodeId, st =>
    if nodeId ∈ st.recStack then Outcome.returned (true, st)
    else if nodeId ∈ st.visited then Outcome.returned (false, st)
    else
      let st1 : DfsState :=
        { st with visited := setAdd st.visited nodeId,
                  recStack := setAdd st.recStack nodeId }
      match objRead adjacencyList nodeId with
      | Lookup.array neighbors =>
        match visitNeighbors (dfsVisit adjacencyList depth) neighbors st1 with
        | Outcome.threw t => Outcome.threw t
        | Outcome.returned (true, st2) => Outcome.returned (true, st2)
        | Outcome.returned (false, st2) =>
          Outcome.returned
            (false, { st2 with recStack := setDelete st2.recStack nodeId })
      | Lookup.undefined =>
        Outcome.returned
          (false, { st1 with recStack := setDelete st1.recStack nodeId })
      | Lookup.inherited => Outcome.threw Thrown.typeError
      | Lookup.unmodelled => Outcome.threw Thrown.unmodelled

/-- The loop `for (const node of nodes)` that starts a traversal at every node
not yet visited and stops at the first cycle (source lines 460-467). -/
def visitAll (visit : String → DfsState → Outcome (Bool × DfsState)) :
    List Node → DfsState → Outcome DfsState
  | [], st => Outcome.returned st
  | node :: rest, st =>
    if node.id ∈ st.visited then visitAll visit rest st
    else
      match visit node.id st with
      | Outcome.threw t => Outcome.threw t
      | Outcome.returned (true, st') =>
        Outcome.returned { st' with hasCycles := true }
      | Outcome.returned (false, st') => visitAll visit rest st'

/-- The set `connectedNodes` built at source lines 474-478. -/
def connectedNodes (edges : List Edge) : List String :=
  edges.foldl (fun s edge => setAdd (setAdd s edge.source) edge.target) []

/-- The body of the `dagStatus` memo (source lines 417-492), run on a call
stack that admits `stackDepth` nested calls of `dfsVisit`. -/
def dagStatusWith (stackDepth : Nat) (nodes : List Node) (edges : List Edge) :
    Outcome DagStatus :=
  let nodeCount := nodes.length
  let edgeCount := edges.length
  let hasMinimumNodes := decide (nodeCount ≥ 2)
  match buildAdjacency nodes edges with
  | Outcome.threw t => Outcome.threw t
  | Outcome.returned adjacencyList =>
    match visitAll (dfsVisit adjacencyList stackDepth) nodes
        { visited := [], recStack := [], hasCycles := false } with
    | Outcome.threw t => Outcome.threw t
    | Outcome.returned st =>
      let noCycles := !st.hasCycles
      let allNodesConnected :=
        if nodeCount ≥ 2 then decide ((connectedNodes edges).length = nodeCount)
        else true
      let isValidDAG := hasMinimumNodes && noCycles && allNodesConnected
      Outcome.returned
        { isValidDAG := isValidDAG,
          hasMinimumNodes := hasMinimumNodes,
          noCycles := noCycles,
          allNodesConnected := allNodesConnected,
          nodeCount := nodeCount,
          edgeCount := edgeCount }

/-- The report of the validator on a call stack deep enough for the snapshot
(`nodes.length + edges.length + 1` nested calls; no traversal nests deeper):
`some` report, or `none` when the validator throws. -/
def dagStatus (nodes : List Node) (edges : List Edge) : Option DagStatus :=
  match dagStatusWith (nodes.length + edges.length + 1) nodes edges with
  | Outcome.returned r => some r
  | Outcome.threw _ => none

/-! ## Snapshot-level notions -/

/-- The snapshot has an edge from `u` to `v`. -/
def EdgeRel (edges : List Edge) (u v : String) : Prop :=
  ∃ e ∈ edges, e.source = u ∧ e.target = v

instance (edges : List Edge) (u v : String) : Decidable (EdgeRel edges u v) :=
  inferInstanceAs (Decidable (∃ e ∈ edges, e.source = u ∧ e.target = v))

/-- The ids of the nodes of a snapshot, in order. -/
def nodeIds (nodes : List Node) : List String :=
  nodes.map (fun n => n.id)

/-- The endpoints of the edges of a snapshot, source before target, in edge
order and with repetitions. -/
def endpointIds : List Edge → List String
  | [] => []
  | e :: rest => e.source :: e.target :: endpointIds rest

/-- A node with the given id, used in examples. -/
def sampleNode (id : String) : Node :=
  { id := id, label := id, nodeType := "processing", selected := false }

/-- An edge with the given endpoints, used in examples. -/
def sampleEdge (source target : String) : Edge :=
  { id := "reactflow__edge-" ++ source ++ "-" ++ target,
    source := source, target := target, selected := false }

/-- A ranking of ids in which the single edge from A to `constructor` climbs. -/
def sampleRank (x : String) : Nat :=
  if x = "A" then 0 else 1

/-! ## The graph store: state and handlers of `PipelineFlow` -/

/-- The React state of `PipelineFlow` that the graph logic reads and writes,
together with the value of `nodeIdCounter` that the registered `createNode`
listener has closed over (`capturedNodeIdCounter`). -/
structure Store where
  nodes : List Node
  edges : List Edge
  nodeIdCounter : Nat
  invalidConnection : Bool
  capturedNodeIdCounter : Nat
deriving DecidableEq, Repr

/-- The initial state: `useNodesState([])`, `useEdgesState([])`,
`useState(1)` for the counter and `useState(false)` for the flag; the listener
registered after the first render has closed over the counter 1. -/
def initialStore : Store :=
  { nodes := [], edges := [], nodeIdCounter := 1, invalidConnection := false,
    capturedNodeIdCounter := 1 }

/-- The template literal that names a new node from the counter. -/
def nodeIdOf (counter : Nat) : String :=
  "node-" ++ toString counter

/-- The update `prev => prev + 1` on a JavaScript number: exact below `2^53`,
while `2^53 + 1` rounds back to `2^53`.  (A counter started at 1 never exceeds
`2^53`.) -/
def incrementCounter (prev : Nat) : Nat :=
  if prev < 9007199254740992 then prev + 1 else prev

/-- Modelled from the spec: `addEdge` is imported from the reactflow library
and is not part of the source.  Following the spec it creates an edge from
`source` to `target` and appends it to the edge list, with no deduplication of
parallel edges; the new edge is named after its endpoints. -/
def addEdge (source target : String) (eds : List Edge) : List Edge :=
  eds ++ [{ id := "reactflow__edge-" ++ source ++ "-" ++ target,
            source := source, target := target, selected := false }]

/-- The handler `onConnect` (source lines 263-272): a connection from a node to
itself raises `invalidConnection` and returns; any other connection is handed
to `addEdge`.  (The flag is lowered two seconds later by a timer, see
`clearInvalidConnection`.) -/
def onConnect (source target : String) (s : Store) : Store :=
  if source = target then { s with invalidConnection := true }
  else { s with edges := addEdge source target s.edges }

/-- The timer callback `() => setInvalidConnection(false)` armed by a rejected
connection. -/
def clearInvalidConnection (s : Store) : Store :=
  { s with invalidConnection := false }

/-- The listener `handleCreateNode` (source lines 276-291).  The id of the new
node is made from the `nodeIdCounter` of the closure (line 280), the node is
appended to the live node list (line 289) and the live counter is incremented
(line 290). -/
def handleCreateNode (name nodeType : String) (s : Store) : Store :=
  let newNode : Node :=
    { id := nodeIdOf s.capturedNodeIdCounter, label := name, nodeType := nodeType,
      selected := false }
  { s with nodes := s.nodes ++ [newNode],
           nodeIdCounter := incrementCounter s.nodeIdCounter }

/-- The re-render that React performs after a state change: `nodeIdCounter` is
a dependency of the effect at source lines 275-306, so the effect runs again
and registers a `handleCreateNode` that has closed over the current counter. -/
def commitRender (s : Store) : Store :=
  { s with capturedNodeIdCounter := s.nodeIdCounter }

/-- The handler `handleDeleteNode` (source lines 293-297). -/
def handleDeleteNode (nodeId : String) (s : Store) : Store :=
  { s with
    nodes := s.nodes.filter (fun node => decide (node.id ≠ nodeId)),
    edges := s.edges.filter
      (fun edge => decide (edge.source ≠ nodeId) && decide (edge.target ≠ nodeId)) }

/-- The list `selectedNodeIds` computed by `handleKeyDown` (source line 313). -/
def selectedNodeIds (nodes : List Node) : List String :=
  (nodes.filter (fun node => node.selected)).map (fun node => node.id)

/-- The handler `handleKeyDown` (source lines 310-326): on Delete or Backspace
the selected nodes go, and with them the selected edges and the edges that
touch a selected node. -/
def handleKeyDown (key : String) (s : Store) : Store :=
  if key = "Delete" ∨ key = "Backspace" then
    let selectedNodeIds := selectedNodeIds s.nodes
    { s with
      nodes := s.nodes.filter (fun node => !node.selected),
      edges := s.edges.filter (fun edge =>
        !edge.selected &&
        !decide (edge.source ∈ selectedNodeIds) &&
        !decide (edge.target ∈ selectedNodeIds)) }
  else s

/-- Modelled from the spec: the selection is state owned by the UI (the
reactflow change handlers, which are not part of the source, maintain the
`selected` flags).  A change of selection is modelled as an arbitrary
re-marking of the flags of the current nodes and edges. -/
def setSelection (selNode : Node → Bool) (selEdge : Edge → Bool) (s : Store) :
    Store :=
  { s with
    nodes := s.nodes.map (fun n => { n with selected := selNode n }),
    edges := s.edges.map (fun e => { e with selected := selEdge e }) }

/-- The store after two nodes have been created from the initial state, with
the re-render that follows the first creation. -/
def twoNodeStore (name1 type1 name2 type2 : String) : Store :=
  handleCreateNode name2 type2
    (commitRender (handleCreateNode name1 type1 initialStore))

/-- A store with nodes A (selected) and B and the edges A→B and B→A, used in
examples. -/
def sampleSelectionStore : Store :=
  { nodes := [{ sampleNode "A" with selected := true }, sampleNode "B"],
    edges := [sampleEdge "A" "B", sampleEdge "B" "A"],
    nodeIdCounter := 3, invalidConnection := false, capturedNodeIdCounter := 3 }

/-- A store with nodes A and B already joined by an edge A→B, used in
examples. -/
def sampleParallelStore : Store :=
  { nodes := [sampleNode "A", sampleNode "B"],
    edges := [sampleEdge "A" "B"],
    nodeIdCounter := 3, invalidConnection := false, capturedNodeIdCounter := 3 }

/-- The events that change the store: the `createNode` and `deleteNode` events,
a connection, a change of selection, a key press, the timer of the
invalid-connection notice, and a re-render. -/
inductive Op where
  | addNode (name nodeType : String)
  | removeNode (nodeId : String)
  | addEdge (source target : String)
  | select (selNode : Node → Bool) (selEdge : Edge → Bool)
  | keyDown (key : String)
  | invalidConnectionTimeout
  | render

/-- One event applied to the store. -/
def step (s : Store) : Op → Store
  | Op.addNode name nodeType => handleCreateNode name nodeType s
  | Op.removeNode nodeId => handleDeleteNode nodeId s
  | Op.addEdge source target => onConnect source target s
  | Op.select selNode selEdge => setSelection selNode selEdge s
  | Op.keyDown key => handleKeyDown key s
  | Op.invalidConnectionTimeout => clearInvalidConnection s
  | Op.render => commitRender s

/-- A sequence of events applied in order. -/
def run (s : Store) (ops : List Op) : Store :=
  ops.foldl step s

/-! ## Sequences of store operations -/

/-- The store has no dangling edge: both endpoints of every edge are ids of
stored nodes. -/
def Integrity (s : Store) : Prop :=
  ∀ e ∈ s.edges, e.source ∈ nodeIds s.nodes ∧ e.target ∈ nodeIds s.nodes

instance decIntegrity (s : Store) : Decidable (Integrity s) :=
  inferInstanceAs
    (Decidable (∀ e ∈ s.edges, e.source ∈ nodeIds s.nodes ∧ e.target ∈ nodeIds s.nodes))

/-- The endpoints named by an `addEdge` event are ids of nodes of the store;
every other event passes. -/
def endpointsPresent (s : Store) : Op → Prop
  | Op.addEdge source target => source ∈ nodeIds s.nodes ∧ target ∈ nodeIds s.nodes
  | _ => True

/-- Every `addEdge` of the sequence names nodes that exist when it happens. -/
def ConnectsExisting : Store → List Op → Prop
  | _, [] => True
  | s, op :: ops => endpointsPresent s op ∧ ConnectsExisting (step s op) ops

instance decEndpointsPresent (s : Store) :
    (op : Op) → Decidable (endpointsPresent s op)
  | Op.addEdge source target =>
    inferInstanceAs
      (Decidable (source ∈ nodeIds s.nodes ∧ target ∈ nodeIds s.nodes))
  | Op.addNode _ _ => isTrue trivial
  | Op.removeNode _ => isTrue trivial
  | Op.select _ _ => isTrue trivial
  | Op.keyDown _ => isTrue trivial
  | Op.invalidConnectionTimeout => isTrue trivial
  | Op.render => isTrue trivial

instance decConnectsExisting :
    (s : Store) → (ops : List Op) → Decidable (ConnectsExisting s ops)
  | _, [] => isTrue trivial
  | s, op :: ops =>
    @instDecidableAnd _ _ (decEndpointsPresent s op)
      (decConnectsExisting (step s op) ops)

/-! ## Notions used to reason about the traversal -/

/-- The successor relation read off the adjacency object. -/
def Arc (adjacencyList : JsObject) (u v : String) : Prop :=
  ∃ neighbors, objRead adjacencyList u = Lookup.array neighbors ∧ v ∈ neighbors

/-- What a call answering `false` leaves behind: the recursion stack and the
flag are as before, the visited set has grown and holds the visited id. -/
def FalseFrame (v : String) (st st' : DfsState) : Prop :=
  st'.recStack = st.recStack ∧ st'.hasCycles = st.hasCycles ∧
    st.visited ⊆ st'.visited ∧ v ∈ st'.visited

/-- Number of entries of the universe `U` that are not yet visited. -/
def unvisited (U visited : List String) : Nat :=
  U.countP (fun x => decide (x ∉ visited))

/-- An id is finished when it is visited and no longer on the recursion
stack. -/
def Finished (st : DfsState) (x : String) : Prop :=
  x ∈ st.visited ∧ x ∉ st.recStack

/-- The invariant of a traversal that has not found a cycle: the finished ids
are closed under successors and none of them lies on a cycle. -/
def Settled (adj : JsObject) (st : DfsState) : Prop :=
  ∀ b, Finished st b →
    (∀ n, Arc adj b n → Finished st n) ∧ ¬ Relation.TransGen (Arc adj) b b

/-- Every array the adjacency object holds, as an own property or as its
prototype, has its elements in `T`. -/
def ArraysWithin (o : JsObject) (T : List String) : Prop :=
  (∀ k ns, getOwn o.own k = some ns → ∀ n ∈ ns, n ∈ T) ∧
    ∀ ns, o.proto = some ns → ∀ n ∈ ns, n ∈ T

/-- No node id and no edge endpoint of the snapshot is a property name of
`Object.prototype`. -/
def SafeIds (nodes : List Node) (edges : List Edge) : Prop :=
  ∀ x ∈ nodeIds nodes ++ endpointIds edges, x ∉ objectPrototypeKeys

instance decSafeIds (nodes : List Node) (edges : List Edge) :
    Decidable (SafeIds nodes edges) :=
  inferInstanceAs
    (Decidable (∀ x ∈ nodeIds nodes ++ endpointIds edges, x ∉ objectPrototypeKeys))

/-! # Theorems -/

/-! ## Auxiliary facts about sets, walks and the connectivity set -/

theorem mem_setAdd (s : List String) (x y : String) :
    y ∈ setAdd s x ↔ y ∈ s ∨ y = x := by
  unfold setAdd
  split_ifs with h
  · constructor
    · exact Or.inl
    · rintro (h' | rfl)
      · exact h'
      · exact h
  · simp

theorem nodup_setAdd (s : List String) (x : String) (h : s.Nodup) :
    (setAdd s x).Nodup := by
  unfold setAdd
  split_ifs with hx
  · exact h
  · exact List.Nodup.append h (List.nodup_singleton x)
      (by
        intro a ha hax
        rw [List.mem_singleton] at hax
        exact hx (hax ▸ ha))

theorem connectedNodes_foldl (edges : List Edge) :
    ∀ (s : List String), s.Nodup →
      (edges.foldl (fun s edge => setAdd (setAdd s edge.source) edge.target) s).Nodup ∧
      ∀ x, x ∈ edges.foldl
            (fun s edge => setAdd (setAdd s edge.source) edge.target) s ↔
          x ∈ s ∨ ∃ e ∈ edges, e.source = x ∨ e.target = x := by
  induction edges with
  | nil => intro s hs; simp [hs]
  | cons e rest ih =>
    intro s hs
    rw [List.foldl_cons]
    obtain ⟨h1, h2⟩ := ih (setAdd (setAdd s e.source) e.target)
      (nodup_setAdd _ _ (nodup_setAdd _ _ hs))
    refine ⟨h1, ?_⟩
    intro x
    rw [h2, mem_setAdd, mem_setAdd]
    constructor
    · rintro (((h | h) | h) | ⟨e', he', h⟩)
      · exact Or.inl h
      · exact Or.inr ⟨e, List.mem_cons_self _ _, Or.inl h.symm⟩
      · exact Or.inr ⟨e, List.mem_cons_self _ _, Or.inr h.symm⟩
      · exact Or.inr ⟨e', List.mem_cons_of_mem _ he', h⟩
    · rintro (h | ⟨e', he', h⟩)
      · exact Or.inl (Or.inl (Or.inl h))
      · rcases List.mem_cons.mp he' with rfl | he'
        · rcases h with h | h
          · exact Or.inl (Or.inl (Or.inr h.symm))
          · exact Or.inl (Or.inr h.symm)
        · exact Or.inr ⟨e', he', h⟩

theorem nodup_connectedNodes (edges : List Edge) : (connectedNodes edges).Nodup :=
  (connectedNodes_foldl edges [] List.nodup_nil).1

theorem mem_connectedNodes (edges : List Edge) (x : String) :
    x ∈ connectedNodes edges ↔ ∃ e ∈ edges, e.source = x ∨ e.target = x := by
  unfold connectedNodes
  rw [(connectedNodes_foldl edges [] List.nodup_nil).2]
  simp

theorem lt_of_chain_ranked (edges : List Edge) (f : String → Nat)
    (hf : ∀ u w, EdgeRel edges u w → f u < f w) (w : String) :
    ∀ (rest : List String) (v : String),
      List.Chain (EdgeRel edges) v (rest ++ [w]) → f v < f w := by
  intro rest
  induction rest with
  | nil =>
    intro v hch
    simp only [List.nil_append, List.chain_cons, List.Chain.nil, and_true] at hch
    exact hf v w hch
  | cons a rest ih =>
    intro v hch
    simp only [List.cons_append, List.chain_cons] at hch
    exact lt_trans (hf v a hch.1) (ih a hch.2)

/-- A snapshot whose edges all climb along a ranking has no closed walk. -/
theorem no_closed_walk_of_ranked (edges : List Edge) (f : String → Nat)
    (hf : ∀ u w, EdgeRel edges u w → f u < f w) :
    ¬ ∃ v rest, List.Chain (EdgeRel edges) v (rest ++ [v]) := by
  rintro ⟨v, rest, hch⟩
  exact lt_irrefl _ (lt_of_chain_ranked edges f hf v rest v hch)

/-! ## Claims about single store operations -/

/-- C4. Self-loop rejection: in every store state and for every id `n`,
whether or not a node with that id exists, `onConnect n n` raises the
invalid-connection flag and leaves the node list, the edge list, the edge
count and the counter unchanged. -/
theorem onConnect_self_rejected (s : Store) (n : String) :
    (onConnect n n s).invalidConnection = true ∧
      (onConnect n n s).nodes = s.nodes ∧
      (onConnect n n s).edges = s.edges ∧
      (onConnect n n s).edges.length = s.edges.length ∧
      (onConnect n n s).nodeIdCounter = s.nodeIdCounter := by
  simp [onConnect]

/-- C5. Cascading delete: after `handleDeleteNode x` the store holds no node
with id `x` and no edge whose source or target is `x`. -/
theorem handleDeleteNode_cascade (s : Store) (x : String) :
    (∀ n ∈ (handleDeleteNode x s).nodes, n.id ≠ x) ∧
      ∀ e ∈ (handleDeleteNode x s).edges, e.source ≠ x ∧ e.target ≠ x := by
  constructor
  · intro n hn
    simp only [handleDeleteNode, List.mem_filter, decide_eq_true_eq] at hn
    exact hn.2
  · intro e he
    simp only [handleDeleteNode, List.mem_filter, Bool.and_eq_true,
      decide_eq_true_eq] at he
    exact he.2

/-- C8. Bulk selection delete: on Delete (or Backspace) the store keeps exactly
the nodes that are not selected and exactly the edges that are not selected and
have neither source nor target among the ids of the selected nodes, each in
their original order; an edge is removed exactly when it is selected or touches
a removed node.  When node ids are pairwise distinct, the nodes kept are those
whose id is not among the selected node ids. -/
theorem handleKeyDown_removes_selection (s : Store) (key : String)
    (hkey : key = "Delete" ∨ key = "Backspace") :
    (handleKeyDown key s).nodes = s.nodes.filter (fun n => !n.selected) ∧
      (handleKeyDown key s).edges =
        s.edges.filter (fun e =>
          !e.selected && !decide (e.source ∈ selectedNodeIds s.nodes) &&
            !decide (e.target ∈ selectedNodeIds s.nodes)) ∧
      (∀ e, e ∈ (handleKeyDown key s).edges ↔
        e ∈ s.edges ∧ e.selected = false ∧
          e.source ∉ selectedNodeIds s.nodes ∧ e.target ∉ selectedNodeIds s.nodes) ∧
      (∀ e ∈ s.edges, e ∉ (handleKeyDown key s).edges ↔
        e.selected = true ∨
          ∃ n ∈ s.nodes, n ∉ (handleKeyDown key s).nodes ∧
            (e.source = n.id ∨ e.target = n.id)) ∧
      ((nodeIds s.nodes).Nodup →
        (handleKeyDown key s).nodes =
          s.nodes.filter (fun n => decide (n.id ∉ selectedNodeIds s.nodes))) ∧
      (handleKeyDown key s).nodeIdCounter = s.nodeIdCounter := by
  have hnodes : (handleKeyDown key s).nodes = s.nodes.filter (fun n => !n.selected) := by
    simp only [handleKeyDown, if_pos hkey]
  have hedges : (handleKeyDown key s).edges =
      s.edges.filter (fun e =>
        !e.selected && !decide (e.source ∈ selectedNodeIds s.nodes) &&
          !decide (e.target ∈ selectedNodeIds s.nodes)) := by
    simp only [handleKeyDown, if_pos hkey]
  have hmem : ∀ e, e ∈ (handleKeyDown key s).edges ↔
      e ∈ s.edges ∧ e.selected = false ∧
        e.source ∉ selectedNodeIds s.nodes ∧ e.target ∉ selectedNodeIds s.nodes := by
    intro e
    rw [hedges, List.mem_filter]
    simp [and_assoc]
  have hsel : ∀ x, x ∈ selectedNodeIds s.nodes ↔
      ∃ n ∈ s.nodes, n ∉ (handleKeyDown key s).nodes ∧ x = n.id := by
    intro x
    rw [hnodes]
    simp only [selectedNodeIds, List.mem_map, List.mem_filter]
    constructor
    · rintro ⟨n, ⟨hn, hs⟩, rfl⟩
      exact ⟨n, hn, by simp [hs], rfl⟩
    · rintro ⟨n, hn, hnot, rfl⟩
      refine ⟨n, ⟨hn, ?_⟩, rfl⟩
      by_contra hs
      exact hnot ⟨hn, by simpa using hs⟩
  refine ⟨hnodes, hedges, hmem, ?_, ?_, ?_⟩
  · intro e he
    rw [hmem]
    constructor
    · intro hnot
      by_cases h1 : e.selected = true
      · exact Or.inl h1
      · right
        by_cases h2 : e.source ∈ selectedNodeIds s.nodes
        · obtain ⟨n, hn, hrem, heq⟩ := (hsel _).mp h2
          exact ⟨n, hn, hrem, Or.inl heq⟩
        · by_cases h3 : e.target ∈ selectedNodeIds s.nodes
          · obtain ⟨n, hn, hrem, heq⟩ := (hsel _).mp h3
            exact ⟨n, hn, hrem, Or.inr heq⟩
          · exact absurd ⟨he, by simpa using h1, h2, h3⟩ hnot
    · rintro (h1 | ⟨n, hn, hrem, h2 | h2⟩) ⟨_, g1, g2, g3⟩
      · rw [g1] at h1
        exact absurd h1 (by simp)
      · exact g2 ((hsel _).mpr ⟨n, hn, hrem, h2⟩)
      · exact g3 ((hsel _).mpr ⟨n, hn, hrem, h2⟩)
  · intro hnd
    rw [hnodes]
    apply List.filter_congr
    intro n hn
    have : n.id ∈ selectedNodeIds s.nodes ↔ n.selected = true := by
      simp only [selectedNodeIds, List.mem_map, List.mem_filter]
      constructor
      · rintro ⟨m, ⟨hm, hs⟩, hid⟩
        have hmn : m = n :=
          List.inj_on_of_nodup_map hnd hm hn hid
        exact hmn ▸ hs
      · intro hs
        exact ⟨n, ⟨hn, hs⟩, rfl⟩
    by_cases hs : n.selected = true
    · simp [hs, this.mpr hs]
    · have h' : n.id ∉ selectedNodeIds s.nodes := fun h => hs (this.mp h)
      simp [hs, h']
  · simp only [handleKeyDown, if_pos hkey]

/-- Witness for C8: node A selected, edges A→B and B→A not selected; Delete
leaves only node B and no edge. -/
theorem handleKeyDown_removes_selection_witness :
    (handleKeyDown "Delete" sampleSelectionStore).nodes = [sampleNode "B"] ∧
      (handleKeyDown "Delete" sampleSelectionStore).edges.length = 0 := by
  obtain ⟨_, h2, _, _, h5, _⟩ :=
    handleKeyDown_removes_selection sampleSelectionStore "Delete" (Or.inl rfl)
  rw [h5 (by decide), h2]
  decide

/-- C10. End-to-end scenario: from the initial store, creating two nodes (with
any labels and categories) and connecting the first to the second is accepted
(the flag stays down, one edge from `node-1` to `node-2` is stored), and the
validator reports exactly `isValidDAG`, `hasMinimumNodes`, `noCycles` and
`allNodesConnected` true with `nodeCount` 2 and `edgeCount` 1. -/
theorem end_to_end_two_nodes_one_edge (name1 type1 name2 type2 : String) :
    nodeIds (twoNodeStore name1 type1 name2 type2).nodes = [nodeIdOf 1, nodeIdOf 2] ∧
      (onConnect (nodeIdOf 1) (nodeIdOf 2)
        (twoNodeStore name1 type1 name2 type2)).invalidConnection = false ∧
      (onConnect (nodeIdOf 1) (nodeIdOf 2)
        (twoNodeStore name1 type1 name2 type2)).nodes =
          (twoNodeStore name1 type1 name2 type2).nodes ∧
      (onConnect (nodeIdOf 1) (nodeIdOf 2)
        (twoNodeStore name1 type1 name2 type2)).edges.map
          (fun e => (e.source, e.target)) = [(nodeIdOf 1, nodeIdOf 2)] ∧
      dagStatus
        (onConnect (nodeIdOf 1) (nodeIdOf 2)
          (twoNodeStore name1 type1 name2 type2)).nodes
        (onConnect (nodeIdOf 1) (nodeIdOf 2)
          (twoNodeStore name1 type1 name2 type2)).edges =
        some ⟨true, true, true, true, 2, 1⟩ := by
  have h1 : nodeIdOf 1 = "node-1" := by decide
  have h2 : nodeIdOf 2 = "node-2" := by decide
  have hc : incrementCounter 1 = 2 := by decide
  have hn : (onConnect (nodeIdOf 1) (nodeIdOf 2)
      (twoNodeStore name1 type1 name2 type2)).nodes =
      [⟨"node-1", name1, type1, false⟩, ⟨"node-2", name2, type2, false⟩] := by
    simp [twoNodeStore, handleCreateNode, commitRender, onConnect, initialStore,
      hc, h1, h2]
  have he : (onConnect (nodeIdOf 1) (nodeIdOf 2)
      (twoNodeStore name1 type1 name2 type2)).edges =
      [⟨"reactflow__edge-node-1-node-2", "node-1", "node-2", false⟩] := by
    simp [twoNodeStore, handleCreateNode, commitRender, onConnect, initialStore,
      hc, addEdge, h1, h2]
  refine ⟨?_, ?_, ?_, ?_, ?_⟩
  · simp [twoNodeStore, handleCreateNode, commitRender, initialStore, hc, nodeIds]
  · simp [onConnect, twoNodeStore, handleCreateNode, commitRender, initialStore,
      h1, h2]
  · simp [onConnect, h1, h2]
  · rw [he]
    simp [h1, h2]
  · rw [hn, he]
    rfl

/-- C11. Parallel duplicate edges are permitted: for every store state and
every `source ≠ target`, `onConnect source target` appends one new edge from
`source` to `target`, so the edge count grows by exactly one, also when the
edge list already holds an edge with the same source and target; nodes, flag
and counter are unchanged. -/
theorem onConnect_appends (s : Store) (source target : String)
    (hne : source ≠ target) :
    (onConnect source target s).edges.length = s.edges.length + 1 ∧
      (∃ e, (onConnect source target s).edges = s.edges ++ [e] ∧
        e.source = source ∧ e.target = target) ∧
      (onConnect source target s).nodes = s.nodes ∧
      (onConnect source target s).invalidConnection = s.invalidConnection ∧
      (onConnect source target s).nodeIdCounter = s.nodeIdCounter := by
  simp only [onConnect, if_neg hne, addEdge, List.length_append, List.length_singleton]
  exact ⟨trivial, ⟨_, rfl, rfl, rfl⟩, trivial, trivial, trivial⟩

/-- Witness for C11: the store already holds an edge A→B; connecting A to B
again gives two edges. -/
theorem onConnect_appends_witness :
    (∃ e ∈ sampleParallelStore.edges, e.source = "A" ∧ e.target = "B") ∧
      (onConnect "A" "B" sampleParallelStore).edges.length = 2 := by
  refine ⟨by decide, ?_⟩
  have h := (onConnect_appends sampleParallelStore "A" "B" (by decide)).1
  rw [h]
  rfl

/-- C12 (as stated, refuted). Deleting an absent id still filters the edge
list: after `addEdge "node-1" "node-2"` on the initial store, which holds no
node, `handleDeleteNode "node-1"` removes the stored edge. -/
theorem handleDeleteNode_absent_changes_edges :
    ¬ ∀ (s : Store) (x : String), x ∉ nodeIds s.nodes →
      (handleDeleteNode x s).nodes = s.nodes ∧ (handleDeleteNode x s).edges = s.edges := by
  intro h
  have h1 := (h (run initialStore [Op.addEdge "node-1" "node-2"]) "node-1" (by decide)).2
  revert h1
  decide

/-- C12 (amended). In every store state without dangling edges, deleting an id
that is not the id of any node leaves the node list, the edge list and the
whole store unchanged. -/
theorem handleDeleteNode_absent_noop (s : Store) (x : String)
    (hx : x ∉ nodeIds s.nodes) (hI : Integrity s) :
    (handleDeleteNode x s).nodes = s.nodes ∧
      (handleDeleteNode x s).edges = s.edges ∧
      handleDeleteNode x s = s := by
  have hn : s.nodes.filter (fun node => decide (node.id ≠ x)) = s.nodes := by
    rw [List.filter_eq_self]
    intro n hn
    simp only [ne_eq, decide_eq_true_eq]
    rintro rfl
    exact hx (List.mem_map_of_mem (fun n => n.id) hn)
  have he : s.edges.filter
      (fun edge => decide (edge.source ≠ x) && decide (edge.target ≠ x)) = s.edges := by
    rw [List.filter_eq_self]
    intro e he
    obtain ⟨h1, h2⟩ := hI e he
    simp only [ne_eq, Bool.and_eq_true, decide_eq_true_eq]
    exact ⟨fun h => hx (h ▸ h1), fun h => hx (h ▸ h2)⟩
  refine ⟨hn, he, ?_⟩
  simp only [handleDeleteNode, hn, he]

/-- Witness for the amended C12: deleting the absent id `node-7` from a store
with nodes A, B and the edge A→B changes nothing. -/
theorem handleDeleteNode_absent_noop_witness :
    handleDeleteNode "node-7" sampleParallelStore = sampleParallelStore :=
  (handleDeleteNode_absent_noop sampleParallelStore "node-7" (by decide) (by decide)).2.2

/-! ## Claims about sequences of store operations -/

theorem nodeIds_setSelection (selNode : Node → Bool) (selEdge : Edge → Bool)
    (s : Store) : nodeIds (setSelection selNode selEdge s).nodes = nodeIds s.nodes := by
  simp [setSelection, nodeIds, Function.comp_def]

theorem mem_nodeIds_filter (nodes : List Node) (p : Node → Bool) (x : String) :
    x ∈ nodeIds (nodes.filter p) ↔ ∃ n ∈ nodes, p n = true ∧ n.id = x := by
  simp [nodeIds, List.mem_map, List.mem_filter, and_assoc]

theorem nodeIds_filter_sublist (nodes : List Node) (p : Node → Bool) :
    (nodeIds (nodes.filter p)).Sublist (nodeIds nodes) :=
  List.Sublist.map _ (List.filter_sublist nodes)

/-- Every event keeps the store free of dangling edges, provided an `addEdge`
names existing nodes. -/
theorem integrity_step (s : Store) (op : Op) (hI : Integrity s)
    (hop : endpointsPresent s op) : Integrity (step s op) := by
  cases op with
  | addNode name nodeType =>
    intro e he
    have := hI e he
    simp only [step, handleCreateNode, nodeIds, List.map_append, List.mem_append]
    exact ⟨Or.inl this.1, Or.inl this.2⟩
  | removeNode x =>
    intro e he
    simp only [step, handleDeleteNode, List.mem_filter, Bool.and_eq_true,
      decide_eq_true_eq] at he
    obtain ⟨he, hs, ht⟩ := he
    obtain ⟨h1, h2⟩ := hI e he
    simp only [step, handleDeleteNode]
    rw [mem_nodeIds_filter, mem_nodeIds_filter]
    obtain ⟨n1, hn1, e1⟩ := List.mem_map.mp h1
    obtain ⟨n2, hn2, e2⟩ := List.mem_map.mp h2
    exact ⟨⟨n1, hn1, by simpa [e1] using hs, e1⟩, ⟨n2, hn2, by simpa [e2] using ht, e2⟩⟩
  | addEdge source target =>
    intro e he
    simp only [step, onConnect] at he ⊢
    split_ifs at he ⊢ with hst
    · exact hI e he
    · simp only [addEdge, List.mem_append, List.mem_singleton] at he
      rcases he with he | rfl
      · exact hI e he
      · exact hop
  | select selNode selEdge =>
    intro e he
    simp only [step] at he ⊢
    rw [nodeIds_setSelection]
    simp only [setSelection, List.mem_map] at he
    obtain ⟨e0, he0, rfl⟩ := he
    exact hI e0 he0
  | keyDown key =>
    intro e he
    simp only [step, handleKeyDown] at he ⊢
    split_ifs at he ⊢ with hkey
    · simp only [List.mem_filter, Bool.and_eq_true, Bool.not_eq_true',
        decide_eq_false_iff_not] at he
      obtain ⟨he, ⟨_, hs⟩, ht⟩ := he
      obtain ⟨h1, h2⟩ := hI e he
      rw [mem_nodeIds_filter, mem_nodeIds_filter]
      obtain ⟨n1, hn1, e1⟩ := List.mem_map.mp h1
      obtain ⟨n2, hn2, e2⟩ := List.mem_map.mp h2
      refine ⟨⟨n1, hn1, ?_, e1⟩, ⟨n2, hn2, ?_, e2⟩⟩
      · cases hsel : n1.selected with
        | false => rfl
        | true =>
          exact absurd (List.mem_map.mpr ⟨n1, List.mem_filter.mpr ⟨hn1, hsel⟩, e1⟩) hs
      · cases hsel : n2.selected with
        | false => rfl
        | true =>
          exact absurd (List.mem_map.mpr ⟨n2, List.mem_filter.mpr ⟨hn2, hsel⟩, e2⟩) ht
    · exact hI e he
  | invalidConnectionTimeout => exact hI
  | render => exact hI

theorem integrity_run :
    ∀ (ops : List Op) (s : Store), Integrity s → ConnectsExisting s ops →
      Integrity (run s ops) := by
  intro ops
  induction ops with
  | nil => intro s hI _; exact hI
  | cons op ops ih =>
    intro s hI hc
    exact ih (step s op) (integrity_step s op hI hc.1) hc.2

/-- C6 (as stated, refuted). `addEdge` does not check that its endpoints exist:
on the empty store, connecting `node-1` to `node-2` stores a dangling edge. -/
theorem integrity_fails_for_arbitrary_addEdge :
    ¬ ∀ ops : List Op, Integrity (run initialStore ops) := by
  intro h
  have h1 := h [Op.addEdge "node-1" "node-2"]
  have h2 := h1 { id := "reactflow__edge-node-1-node-2", source := "node-1",
                  target := "node-2", selected := false } (by decide)
  revert h2
  decide

/-- C6 (amended). Referential integrity is an invariant of the store along
every finite sequence of events applied to the initial store in which each
`addEdge` names a source and a target that are ids of nodes present at that
moment: every edge of the resulting snapshot has its source and its target
among the ids of the snapshot's nodes. -/
theorem integrity_invariant (ops : List Op)
    (hops : ConnectsExisting initialStore ops) :
    ∀ e ∈ (run initialStore ops).edges,
      e.source ∈ nodeIds (run initialStore ops).nodes ∧
        e.target ∈ nodeIds (run initialStore ops).nodes :=
  integrity_run ops initialStore (fun e he => absurd he (by simp [initialStore])) hops

/-- Witness for the amended C6: two nodes are created (with the re-render in
between) and connected, the first is selected and deleted; the edge disappears
with it. -/
theorem integrity_invariant_witness :
    ConnectsExisting initialStore
        [Op.addNode "Source" "dataSource", Op.render,
          Op.addNode "Sink" "output", Op.addEdge "node-1" "node-2",
          Op.select (fun n => decide (n.id = "node-1")) (fun _ => false),
          Op.keyDown "Delete"] ∧
      ∀ e ∈ (run initialStore
          [Op.addNode "Source" "dataSource", Op.render,
            Op.addNode "Sink" "output", Op.addEdge "node-1" "node-2",
            Op.select (fun n => decide (n.id = "node-1")) (fun _ => false),
            Op.keyDown "Delete"]).edges,
        e.source ∈ nodeIds (run initialStore
          [Op.addNode "Source" "dataSource", Op.render,
            Op.addNode "Sink" "output", Op.addEdge "node-1" "node-2",
            Op.select (fun n => decide (n.id = "node-1")) (fun _ => false),
            Op.keyDown "Delete"]).nodes ∧
        e.target ∈ nodeIds (run initialStore
          [Op.addNode "Source" "dataSource", Op.render,
            Op.addNode "Sink" "output", Op.addEdge "node-1" "node-2",
            Op.select (fun n => decide (n.id = "node-1")) (fun _ => false),
            Op.keyDown "Delete"]).nodes :=
  ⟨by decide, integrity_invariant _ (by decide)⟩

/-! ## The traversal: what a call leaves behind -/

theorem setDelete_setAdd (s : List String) (x : String) (h : x ∉ s) :
    setDelete (setAdd s x) x = s := by
  unfold setAdd setDelete
  rw [if_neg h, List.filter_append]
  have h1 : List.filter (fun y => decide (y ≠ x)) s = s := by
    rw [List.filter_eq_self]
    intro a ha
    simp only [ne_eq, decide_eq_true_eq]
    rintro rfl
    exact h ha
  rw [h1]
  simp

theorem visitNeighbors_false_frame
    (visit : String → DfsState → Outcome (Bool × DfsState))
    (hv : ∀ v st st', visit v st = Outcome.returned (false, st') → FalseFrame v st st') :
    ∀ (ns : List String) (st st' : DfsState),
      visitNeighbors visit ns st = Outcome.returned (false, st') →
      st'.recStack = st.recStack ∧ st'.hasCycles = st.hasCycles ∧
        st.visited ⊆ st'.visited ∧ ∀ n ∈ ns, n ∈ st'.visited := by
  intro ns
  induction ns with
  | nil =>
    intro st st' h
    simp only [visitNeighbors, Outcome.returned.injEq, Prod.mk.injEq, true_and] at h
    subst h
    simp
  | cons n rest ih =>
    intro st st' h
    simp only [visitNeighbors] at h
    cases hn : visit n st with
    | threw t => simp [hn] at h
    | returned r =>
      obtain ⟨b, st1⟩ := r
      cases b with
      | true => simp [hn] at h
      | false =>
        simp only [hn] at h
        obtain ⟨h1, h2, h3, h4⟩ := hv n st st1 hn
        obtain ⟨g1, g2, g3, g4⟩ := ih st1 st' h
        refine ⟨g1.trans h1, g2.trans h2, fun x hx => g3 (h3 hx), ?_⟩
        intro m hm
        rcases List.mem_cons.mp hm with rfl | hm
        · exact g3 h4
        · exact g4 m hm

theorem dfsVisit_false_frame (adj : JsObject) :
    ∀ (d : Nat) (v : String) (st st' : DfsState),
      dfsVisit adj d v st = Outcome.returned (false, st') → FalseFrame v st st' := by
  intro d
  induction d with
  | zero => intro v st st' h; simp [dfsVisit] at h
  | succ d ih =>
    intro v st st' h
    simp only [dfsVisit] at h
    split_ifs at h with h1 h2
    · simp at h
    · simp only [Outcome.returned.injEq, Prod.mk.injEq, true_and] at h
      subst h
      exact ⟨rfl, rfl, fun x hx => hx, h2⟩
    · cases hget : objRead adj v with
      | undefined =>
        simp only [hget, Outcome.returned.injEq, Prod.mk.injEq, true_and] at h
        subst h
        refine ⟨setDelete_setAdd _ _ h1, rfl, ?_, ?_⟩
        · intro x hx
          exact (mem_setAdd _ _ _).mpr (Or.inl hx)
        · exact (mem_setAdd _ _ _).mpr (Or.inr rfl)
      | array ns =>
        simp only [hget] at h
        cases hloop : visitNeighbors (dfsVisit adj d) ns
            { st with visited := setAdd st.visited v,
                      recStack := setAdd st.recStack v } with
        | threw t => simp [hloop] at h
        | returned r =>
          obtain ⟨b, st2⟩ := r
          cases b with
          | true => simp [hloop] at h
          | false =>
            simp only [hloop, Outcome.returned.injEq, Prod.mk.injEq, true_and] at h
            subst h
            obtain ⟨g1, g2, g3, _⟩ :=
              visitNeighbors_false_frame (dfsVisit adj d) ih ns _ st2 hloop
            refine ⟨?_, g2, ?_, ?_⟩
            · show setDelete st2.recStack v = st.recStack
              rw [g1]
              exact setDelete_setAdd _ _ h1
            · intro x hx
              exact g3 ((mem_setAdd _ _ _).mpr (Or.inl hx))
            · exact g3 ((mem_setAdd _ _ _).mpr (Or.inr rfl))
      | inherited => simp [hget] at h
      | unmodelled => simp [hget] at h

theorem unvisited_mono (U : List String) {V V' : List String} (h : V ⊆ V') :
    unvisited U V' ≤ unvisited U V := by
  unfold unvisited
  apply List.countP_mono_left
  intro x _ hx
  simp only [decide_eq_true_eq] at hx ⊢
  exact fun hv => hx (h hv)

theorem unvisited_setAdd_lt (U V : List String) (v : String) (hU : v ∈ U)
    (hV : v ∉ V) : unvisited U (setAdd V v) < unvisited U V := by
  unfold unvisited
  induction U with
  | nil => simp at hU
  | cons a rest ih =>
    have hmono : List.countP (fun x => decide (x ∉ setAdd V v)) rest ≤
        List.countP (fun x => decide (x ∉ V)) rest :=
      unvisited_mono rest (fun x hx => (mem_setAdd V v x).mpr (Or.inl hx))
    by_cases hav : a = v
    · subst hav
      have h1 : a ∈ setAdd V a := (mem_setAdd V a a).mpr (Or.inr rfl)
      simp only [List.countP_cons, h1, hV, not_true_eq_false, decide_False,
        not_false_eq_true, decide_True, if_true]
      simp only [Bool.false_eq_true, if_false]
      omega
    · have hrest : v ∈ rest := by
        rcases List.mem_cons.mp hU with h | h
        · exact absurd h.symm hav
        · exact h
      have ih' := ih hrest
      by_cases haV : a ∈ V
      · have h1 : a ∈ setAdd V v := (mem_setAdd V v a).mpr (Or.inl haV)
        simp only [List.countP_cons, h1, haV, not_true_eq_false, decide_False]
        simp only [Bool.false_eq_true, if_false]
        omega
      · have h1 : a ∉ setAdd V v := by
          intro h
          rcases (mem_setAdd V v a).mp h with h | h
          · exact haV h
          · exact hav h
        simp only [List.countP_cons, h1, haV, not_false_eq_true, decide_True,
          if_true]
        omega

theorem unvisited_le_length (U V : List String) : unvisited U V ≤ U.length :=
  List.countP_le_length _

/-! ## The recursion is no deeper than the number of ids -/

theorem visitNeighbors_no_rangeError
    (visit : String → DfsState → Outcome (Bool × DfsState)) (U : List String)
    (d : Nat)
    (ht : ∀ v st, v ∈ U → unvisited U st.visited < d →
      visit v st ≠ Outcome.threw Thrown.rangeError)
    (hf : ∀ v st st', visit v st = Outcome.returned (false, st') → FalseFrame v st st') :
    ∀ (ns : List String) (st : DfsState), (∀ n ∈ ns, n ∈ U) →
      unvisited U st.visited < d →
      visitNeighbors visit ns st ≠ Outcome.threw Thrown.rangeError := by
  intro ns
  induction ns with
  | nil => intro st _ _; simp [visitNeighbors]
  | cons n rest ih =>
    intro st hns hlt
    have h1 := ht n st (hns n (List.mem_cons_self _ _)) hlt
    simp only [visitNeighbors]
    cases hn : visit n st with
    | threw t =>
      rw [hn] at h1
      exact h1
    | returned r =>
      obtain ⟨b, st1⟩ := r
      cases b with
      | true => simp
      | false =>
        simp only
        obtain ⟨_, _, h3, _⟩ := hf n st st1 hn
        exact ih st1 (fun m hm => hns m (List.mem_cons_of_mem _ hm))
          (lt_of_le_of_lt (unvisited_mono U h3) hlt)

/-- With room for more nested calls than a universe `U` closed under successors
has unvisited ids, `dfsVisit` does not exhaust the call stack. -/
theorem dfsVisit_no_rangeError (adj : JsObject) (U : List String)
    (hU : ∀ u ns, objRead adj u = Lookup.array ns → ∀ n ∈ ns, n ∈ U) :
    ∀ (d : Nat) (v : String) (st : DfsState), v ∈ U →
      unvisited U st.visited < d →
      dfsVisit adj d v st ≠ Outcome.threw Thrown.rangeError := by
  intro d
  induction d with
  | zero => intro v st _ h; omega
  | succ d ih =>
    intro v st hv hlt
    simp only [dfsVisit]
    split_ifs with h1 h2
    · simp
    · simp
    · cases hget : objRead adj v with
      | undefined => simp
      | inherited => simp
      | unmodelled => simp
      | array ns =>
        simp only
        have hlt' : unvisited U (setAdd st.visited v) < d := by
          have := unvisited_setAdd_lt U st.visited v hv h2
          omega
        have h3 := visitNeighbors_no_rangeError (dfsVisit adj d) U d ih
          (dfsVisit_false_frame adj d) ns
          { st with visited := setAdd st.visited v,
                    recStack := setAdd st.recStack v }
          (hU v ns hget) hlt'
        cases hloop : visitNeighbors (dfsVisit adj d) ns
            { st with visited := setAdd st.visited v,
                      recStack := setAdd st.recStack v } with
        | threw t =>
          rw [hloop] at h3
          exact h3
        | returned r =>
          obtain ⟨b, st2⟩ := r
          cases b <;> simp

theorem visitAll_no_rangeError
    (visit : String → DfsState → Outcome (Bool × DfsState)) (U : List String)
    (d : Nat)
    (ht : ∀ v st, v ∈ U → unvisited U st.visited < d →
      visit v st ≠ Outcome.threw Thrown.rangeError)
    (hf : ∀ v st st', visit v st = Outcome.returned (false, st') → FalseFrame v st st') :
    ∀ (nodes : List Node) (st : DfsState), (∀ n ∈ nodes, n.id ∈ U) →
      unvisited U st.visited < d →
      visitAll visit nodes st ≠ Outcome.threw Thrown.rangeError := by
  intro nodes
  induction nodes with
  | nil => intro st _ _; simp [visitAll]
  | cons n rest ih =>
    intro st hns hlt
    simp only [visitAll]
    split_ifs with hvis
    · exact ih st (fun m hm => hns m (List.mem_cons_of_mem _ hm)) hlt
    · have h1 := ht n.id st (hns n (List.mem_cons_self _ _)) hlt
      cases hn : visit n.id st with
      | threw t =>
        rw [hn] at h1
        simpa using h1
      | returned r =>
        obtain ⟨b, st1⟩ := r
        cases b with
        | true => simp
        | false =>
          simp only
          obtain ⟨_, _, h3, _⟩ := hf n.id st st1 hn
          exact ih st1 (fun m hm => hns m (List.mem_cons_of_mem _ hm))
            (lt_of_le_of_lt (unvisited_mono U h3) hlt)

/-! ## Without inherited keys in reach nothing but the call stack can fail -/

theorem visitNeighbors_threw_rangeError
    (visit : String → DfsState → Outcome (Bool × DfsState)) (U : List String)
    (hv : ∀ v st t, v ∈ U → visit v st = Outcome.threw t → t = Thrown.rangeError) :
    ∀ (ns : List String) (st : DfsState) (t : Thrown), (∀ n ∈ ns, n ∈ U) →
      visitNeighbors visit ns st = Outcome.threw t → t = Thrown.rangeError := by
  intro ns
  induction ns with
  | nil => intro st t _ h; simp [visitNeighbors] at h
  | cons n rest ih =>
    intro st t hns h
    simp only [visitNeighbors] at h
    cases hn : visit n st with
    | threw t' =>
      simp only [hn, Outcome.threw.injEq] at h
      subst h
      exact hv n st t' (hns n (List.mem_cons_self _ _)) hn
    | returned r =>
      obtain ⟨b, st1⟩ := r
      cases b with
      | true => simp [hn] at h
      | false =>
        simp only [hn] at h
        exact ih st1 t (fun m hm => hns m (List.mem_cons_of_mem _ hm)) h

/-- When every id of a universe `U` closed under successors reads as an own
array or as `undefined`, a call of `dfsVisit` on an id of `U` can only fail by
exhausting the call stack. -/
theorem dfsVisit_threw_rangeError (adj : JsObject) (U : List String)
    (hU : ∀ u ns, objRead adj u = Lookup.array ns → ∀ n ∈ ns, n ∈ U)
    (hsafe : ∀ k ∈ U, objRead adj k ≠ Lookup.inherited ∧
      objRead adj k ≠ Lookup.unmodelled) :
    ∀ (d : Nat) (v : String) (st : DfsState) (t : Thrown), v ∈ U →
      dfsVisit adj d v st = Outcome.threw t → t = Thrown.rangeError := by
  intro d
  induction d with
  | zero =>
    intro v st t _ h
    simp only [dfsVisit, Outcome.threw.injEq] at h
    exact h.symm
  | succ d ih =>
    intro v st t hv h
    simp only [dfsVisit] at h
    split_ifs at h with h1 h2
    cases hget : objRead adj v with
    | undefined => simp [hget] at h
    | inherited => exact absurd hget (hsafe v hv).1
    | unmodelled => exact absurd hget (hsafe v hv).2
    | array ns =>
      simp only [hget] at h
      cases hloop : visitNeighbors (dfsVisit adj d) ns
          { st with visited := setAdd st.visited v,
                    recStack := setAdd st.recStack v } with
      | threw t' =>
        simp only [hloop, Outcome.threw.injEq] at h
        subst h
        exact visitNeighbors_threw_rangeError (dfsVisit adj d) U ih ns _ t'
          (hU v ns hget) hloop
      | returned r =>
        obtain ⟨b, st2⟩ := r
        cases b <;> simp [hloop] at h

theorem visitAll_threw_rangeError
    (visit : String → DfsState → Outcome (Bool × DfsState)) (U : List String)
    (hv : ∀ v st t, v ∈ U → visit v st = Outcome.threw t → t = Thrown.rangeError) :
    ∀ (nodes : List Node) (st : DfsState) (t : Thrown), (∀ n ∈ nodes, n.id ∈ U) →
      visitAll visit nodes st = Outcome.threw t → t = Thrown.rangeError := by
  intro nodes
  induction nodes with
  | nil => intro st t _ h; simp [visitAll] at h
  | cons n rest ih =>
    intro st t hns h
    simp only [visitAll] at h
    split_ifs at h with hvis
    · exact ih st t (fun m hm => hns m (List.mem_cons_of_mem _ hm)) h
    · cases hn : visit n.id st with
      | threw t' =>
        simp only [hn, Outcome.threw.injEq] at h
        subst h
        exact hv n.id st t' (hns n (List.mem_cons_self _ _)) hn
      | returned r =>
        obtain ⟨b, st1⟩ := r
        cases b with
        | true => simp [hn] at h
        | false =>
          simp only [hn] at h
          exact ih st1 t (fun m hm => hns m (List.mem_cons_of_mem _ hm)) h

theorem visitNeighbors_mono
    (visit visit' : String → DfsState → Outcome (Bool × DfsState))
    (h : ∀ v st r, visit v st = Outcome.returned r → visit' v st = Outcome.returned r) :
    ∀ (ns : List String) (st : DfsState) (r : Bool × DfsState),
      visitNeighbors visit ns st = Outcome.returned r → visitNeighbors visit' ns st = Outcome.returned r := by
  intro ns
  induction ns with
  | nil => intro st r hr; simpa [visitNeighbors] using hr
  | cons n rest ih =>
    intro st r hr
    simp only [visitNeighbors] at hr ⊢
    cases hn : visit n st with
    | threw t => simp [hn] at hr
    | returned q =>
      rw [h n st q hn]
      obtain ⟨b, st1⟩ := q
      cases b with
      | true => simpa [hn] using hr
      | false =>
        simp only [hn] at hr
        exact ih st1 r hr

theorem visitAll_mono
    (visit visit' : String → DfsState → Outcome (Bool × DfsState))
    (h : ∀ v st r, visit v st = Outcome.returned r → visit' v st = Outcome.returned r) :
    ∀ (nodes : List Node) (st r : DfsState),
      visitAll visit nodes st = Outcome.returned r → visitAll visit' nodes st = Outcome.returned r := by
  intro nodes
  induction nodes with
  | nil => intro st r hr; simpa [visitAll] using hr
  | cons n rest ih =>
    intro st r hr
    simp only [visitAll] at hr ⊢
    split_ifs at hr ⊢ with hvis
    · exact ih st r hr
    · cases hn : visit n.id st with
      | threw t => simp [hn] at hr
      | returned q =>
        rw [h n.id st q hn]
        obtain ⟨b, st1⟩ := q
        cases b with
        | true => simpa [hn] using hr
        | false =>
          simp only [hn] at hr
          exact ih st1 r hr

/-- A call of `dfsVisit` that returns returns the same with room for one more
nested call. -/
theorem dfsVisit_budget_succ (adj : JsObject) :
    ∀ (d : Nat) (v : String) (st : DfsState) (r : Bool × DfsState),
      dfsVisit adj d v st = Outcome.returned r → dfsVisit adj (d + 1) v st = Outcome.returned r := by
  intro d
  induction d with
  | zero => intro v st r h; simp [dfsVisit] at h
  | succ d ih =>
    intro v st r h
    rw [dfsVisit] at h ⊢
    split_ifs at h ⊢ with h1 h2
    · exact h
    · exact h
    · cases hget : objRead adj v with
      | undefined => simpa [hget] using h
      | array ns =>
        simp only [hget] at h ⊢
        cases hloop : visitNeighbors (dfsVisit adj d) ns
            { st with visited := setAdd st.visited v,
                      recStack := setAdd st.recStack v } with
        | threw t => simp [hloop] at h
        | returned q =>
          rw [visitNeighbors_mono (dfsVisit adj d) (dfsVisit adj (d + 1)) ih ns _ q
            hloop]
          simpa [hloop] using h
      | inherited => simp [hget] at h
      | unmodelled => simp [hget] at h

theorem dfsVisit_budget_le (adj : JsObject) (d d' : Nat)
    (hle : d ≤ d') (v : String) (st : DfsState) (r : Bool × DfsState)
    (h : dfsVisit adj d v st = Outcome.returned r) : dfsVisit adj d' v st = Outcome.returned r := by
  induction hle with
  | refl => exact h
  | step _ ih => exact dfsVisit_budget_succ adj _ v st r ih

/-! ## Soundness of the traversal: an answer `true` exhibits a cycle -/

theorem visitNeighbors_true_cycle (adj : JsObject)
    (visit : String → DfsState → Outcome (Bool × DfsState))
    (hs : ∀ v st st', visit v st = Outcome.returned (true, st') →
      (∀ r ∈ st.recStack, Relation.TransGen (Arc adj) r v) →
      ∃ c, Relation.TransGen (Arc adj) c c)
    (hf : ∀ v st st', visit v st = Outcome.returned (false, st') → FalseFrame v st st') :
    ∀ (ns : List String) (st st' : DfsState),
      visitNeighbors visit ns st = Outcome.returned (true, st') →
      (∀ n ∈ ns, ∀ r ∈ st.recStack, Relation.TransGen (Arc adj) r n) →
      ∃ c, Relation.TransGen (Arc adj) c c := by
  intro ns
  induction ns with
  | nil => intro st st' h; simp [visitNeighbors] at h
  | cons n rest ih =>
    intro st st' h hpre
    simp only [visitNeighbors] at h
    cases hn : visit n st with
    | threw t => simp [hn] at h
    | returned r =>
      obtain ⟨b, st1⟩ := r
      cases b with
      | true => exact hs n st st1 hn (hpre n (List.mem_cons_self _ _))
      | false =>
        simp only [hn] at h
        obtain ⟨h1, _, _, _⟩ := hf n st st1 hn
        apply ih st1 st' h
        intro m hm r hr
        rw [h1] at hr
        exact hpre m (List.mem_cons_of_mem _ hm) r hr

theorem dfsVisit_true_cycle (adj : JsObject) :
    ∀ (d : Nat) (v : String) (st st' : DfsState),
      dfsVisit adj d v st = Outcome.returned (true, st') →
      (∀ r ∈ st.recStack, Relation.TransGen (Arc adj) r v) →
      ∃ c, Relation.TransGen (Arc adj) c c := by
  intro d
  induction d with
  | zero => intro v st st' h; simp [dfsVisit] at h
  | succ d ih =>
    intro v st st' h hpre
    simp only [dfsVisit] at h
    split_ifs at h with h1 h2
    · exact ⟨v, hpre v h1⟩
    · simp at h
    · cases hget : objRead adj v with
      | undefined => simp [hget] at h
      | array ns =>
        simp only [hget] at h
        cases hloop : visitNeighbors (dfsVisit adj d) ns
            { st with visited := setAdd st.visited v,
                      recStack := setAdd st.recStack v } with
        | threw t => simp [hloop] at h
        | returned r =>
          obtain ⟨b, st2⟩ := r
          cases b with
          | false => simp [hloop] at h
          | true =>
            apply visitNeighbors_true_cycle adj (dfsVisit adj d) ih
              (dfsVisit_false_frame adj d) ns _ st2 hloop
            intro n hn r hr
            have harc : Arc adj v n := ⟨ns, hget, hn⟩
            rcases (mem_setAdd _ _ _).mp hr with hr | rfl
            · exact Relation.TransGen.tail (hpre r hr) harc
            · exact Relation.TransGen.single harc
      | inherited => simp [hget] at h
      | unmodelled => simp [hget] at h

theorem visitAll_hasCycles_cycle (adj : JsObject)
    (visit : String → DfsState → Outcome (Bool × DfsState))
    (hs : ∀ v st st', visit v st = Outcome.returned (true, st') →
      (∀ r ∈ st.recStack, Relation.TransGen (Arc adj) r v) →
      ∃ c, Relation.TransGen (Arc adj) c c)
    (hf : ∀ v st st', visit v st = Outcome.returned (false, st') → FalseFrame v st st') :
    ∀ (nodes : List Node) (st st' : DfsState),
      visitAll visit nodes st = Outcome.returned st' → st.recStack = [] →
      st.hasCycles = false → st'.hasCycles = true →
      ∃ c, Relation.TransGen (Arc adj) c c := by
  intro nodes
  induction nodes with
  | nil =>
    intro st st' h _ h2 h3
    simp only [visitAll, Outcome.returned.injEq] at h
    subst h
    rw [h2] at h3
    exact absurd h3 (by simp)
  | cons n rest ih =>
    intro st st' h h1 h2 h3
    simp only [visitAll] at h
    split_ifs at h with hvis
    · exact ih st st' h h1 h2 h3
    · cases hn : visit n.id st with
      | threw t => simp [hn] at h
      | returned r =>
        obtain ⟨b, st1⟩ := r
        cases b with
        | true =>
          apply hs n.id st st1 hn
          intro r hr
          rw [h1] at hr
          simp at hr
        | false =>
          simp only [hn] at h
          obtain ⟨g1, g2, _, _⟩ := hf n.id st st1 hn
          exact ih st1 st' h (g1.trans h1) (g2.trans h2) h3

/-! ## Completeness of the traversal: finished ids lie on no cycle -/

theorem Settled.reach {adj : JsObject} {st : DfsState}
    (hS : Settled adj st) {a b : String} (ha : Finished st a)
    (h : Relation.ReflTransGen (Arc adj) a b) : Finished st b := by
  induction h with
  | refl => exact ha
  | tail _ hbc ih => exact (hS _ ih).1 _ hbc

theorem visitNeighbors_false_settled (adj : JsObject)
    (visit : String → DfsState → Outcome (Bool × DfsState))
    (hc : ∀ v st st', visit v st = Outcome.returned (false, st') → Settled adj st →
      Settled adj st' ∧ Finished st' v)
    (hf : ∀ v st st', visit v st = Outcome.returned (false, st') → FalseFrame v st st') :
    ∀ (ns : List String) (st st' : DfsState),
      visitNeighbors visit ns st = Outcome.returned (false, st') → Settled adj st →
      Settled adj st' ∧ ∀ n ∈ ns, Finished st' n := by
  intro ns
  induction ns with
  | nil =>
    intro st st' h hS
    simp only [visitNeighbors, Outcome.returned.injEq, Prod.mk.injEq, true_and] at h
    subst h
    exact ⟨hS, by simp⟩
  | cons n rest ih =>
    intro st st' h hS
    simp only [visitNeighbors] at h
    cases hn : visit n st with
    | threw t => simp [hn] at h
    | returned r =>
      obtain ⟨b, st1⟩ := r
      cases b with
      | true => simp [hn] at h
      | false =>
        simp only [hn] at h
        obtain ⟨hS1, hF1⟩ := hc n st st1 hn hS
        obtain ⟨hS', hF'⟩ := ih st1 st' h hS1
        obtain ⟨g1, _, g3, _⟩ := visitNeighbors_false_frame visit hf rest st1 st' h
        refine ⟨hS', ?_⟩
        intro m hm
        rcases List.mem_cons.mp hm with rfl | hm
        · exact ⟨g3 hF1.1, by rw [g1]; exact hF1.2⟩
        · exact hF' m hm

theorem dfsVisit_false_settled (adj : JsObject) :
    ∀ (d : Nat) (v : String) (st st' : DfsState),
      dfsVisit adj d v st = Outcome.returned (false, st') → Settled adj st →
      Settled adj st' ∧ Finished st' v := by
  intro d
  induction d with
  | zero => intro v st st' h; simp [dfsVisit] at h
  | succ d ih =>
    intro v st st' h hS
    simp only [dfsVisit] at h
    split_ifs at h with h1 h2
    · simp at h
    · simp only [Outcome.returned.injEq, Prod.mk.injEq, true_and] at h
      subst h
      exact ⟨hS, h2, h1⟩
    · -- the state in which the neighbours are explored is still settled
      have hS1 : Settled adj { st with visited := setAdd st.visited v,
                                       recStack := setAdd st.recStack v } := by
        intro b hb
        have hbv : b ≠ v := fun e => hb.2 ((mem_setAdd _ _ _).mpr (Or.inr e))
        have hbF : Finished st b := by
          refine ⟨?_, fun hr => hb.2 ((mem_setAdd _ _ _).mpr (Or.inl hr))⟩
          rcases (mem_setAdd _ _ _).mp hb.1 with hb1 | hb1
          · exact hb1
          · exact absurd hb1 hbv
        refine ⟨?_, (hS b hbF).2⟩
        intro n hn
        have hnF := (hS b hbF).1 n hn
        refine ⟨(mem_setAdd _ _ _).mpr (Or.inl hnF.1), ?_⟩
        intro hr
        rcases (mem_setAdd _ _ _).mp hr with hr | hr
        · exact hnF.2 hr
        · exact h2 (hr ▸ hnF.1)
      cases hget : objRead adj v with
      | undefined =>
        simp only [hget, Outcome.returned.injEq, Prod.mk.injEq, true_and] at h
        subst h
        have hrec : setDelete (setAdd st.recStack v) v = st.recStack :=
          setDelete_setAdd _ _ h1
        have hnoarc : ∀ n, ¬ Arc adj v n := by
          rintro n ⟨ns, hns, _⟩
          rw [hget] at hns
          exact absurd hns (by simp)
        constructor
        · intro b hb
          have hb1 : b ∈ setAdd st.visited v := hb.1
          have hb2 : b ∉ st.recStack := by
            have := hb.2
            simpa only [hrec] using this
          by_cases hbv : b = v
          · subst hbv
            refine ⟨fun n hn => absurd hn (hnoarc n), ?_⟩
            intro hcyc
            obtain ⟨n, hn, _⟩ := Relation.TransGen.head'_iff.mp hcyc
            exact hnoarc n hn
          · have hbF : Finished st b := by
              refine ⟨?_, hb2⟩
              rcases (mem_setAdd _ _ _).mp hb1 with hb1 | hb1
              · exact hb1
              · exact absurd hb1 hbv
            refine ⟨?_, (hS b hbF).2⟩
            intro n hn
            have hnF := (hS b hbF).1 n hn
            refine ⟨(mem_setAdd _ _ _).mpr (Or.inl hnF.1), ?_⟩
            show n ∉ setDelete (setAdd st.recStack v) v
            rw [hrec]
            exact hnF.2
        · refine ⟨(mem_setAdd _ _ _).mpr (Or.inr rfl), ?_⟩
          show v ∉ setDelete (setAdd st.recStack v) v
          rw [hrec]
          exact h1
      | array ns =>
        simp only [hget] at h
        cases hloop : visitNeighbors (dfsVisit adj d) ns
            { st with visited := setAdd st.visited v,
                      recStack := setAdd st.recStack v } with
        | threw t => simp [hloop] at h
        | returned r =>
          obtain ⟨b, st2⟩ := r
          cases b with
          | true => simp [hloop] at h
          | false =>
            simp only [hloop, Outcome.returned.injEq, Prod.mk.injEq, true_and] at h
            subst h
            obtain ⟨hS2, hF2⟩ := visitNeighbors_false_settled adj (dfsVisit adj d)
              ih (dfsVisit_false_frame adj d) ns _ st2 hloop hS1
            obtain ⟨g1, _, g3, _⟩ := visitNeighbors_false_frame (dfsVisit adj d)
              (dfsVisit_false_frame adj d) ns _ st2 hloop
            have g1' : st2.recStack = setAdd st.recStack v := g1
            have hrec : setDelete st2.recStack v = st.recStack := by
              rw [g1']
              exact setDelete_setAdd _ _ h1
            have hvis : v ∈ st2.visited := g3 ((mem_setAdd _ _ _).mpr (Or.inr rfl))
            have hvrec : v ∈ st2.recStack := by
              rw [g1']
              exact (mem_setAdd _ _ _).mpr (Or.inr rfl)
            -- finished in the final state means finished after the loop, or `v`
            have key : ∀ b, b ∈ st2.visited → b ∉ st.recStack → b ≠ v →
                Finished st2 b := by
              intro b hb1 hb2 hbv
              refine ⟨hb1, ?_⟩
              rw [g1']
              intro hr
              rcases (mem_setAdd _ _ _).mp hr with hr | hr
              · exact hb2 hr
              · exact hbv hr
            have back : ∀ n, Finished st2 n →
                n ∈ st2.visited ∧ n ∉ setDelete st2.recStack v := by
              intro n hn
              refine ⟨hn.1, ?_⟩
              rw [hrec]
              intro hr
              exact hn.2 (by rw [g1']; exact (mem_setAdd _ _ _).mpr (Or.inl hr))
            constructor
            · intro b hb
              have hb1 : b ∈ st2.visited := hb.1
              have hb2 : b ∉ st.recStack := by
                have := hb.2
                simpa only [hrec] using this
              by_cases hbv : b = v
              · subst hbv
                constructor
                · rintro n ⟨ns', hns', hn⟩
                  rw [hget] at hns'
                  simp only [Lookup.array.injEq] at hns'
                  subst hns'
                  exact back n (hF2 n hn)
                · intro hcyc
                  obtain ⟨n, ⟨ns', hns', hn⟩, hreach⟩ :=
                    Relation.TransGen.head'_iff.mp hcyc
                  rw [hget] at hns'
                  simp only [Lookup.array.injEq] at hns'
                  subst hns'
                  exact (hS2.reach (hF2 n hn) hreach).2 hvrec
              · have hbF := key b hb1 hb2 hbv
                exact ⟨fun n hn => back n ((hS2 b hbF).1 n hn), (hS2 b hbF).2⟩
            · refine ⟨hvis, ?_⟩
              show v ∉ setDelete st2.recStack v
              rw [hrec]
              exact h1
      | inherited => simp [hget] at h
      | unmodelled => simp [hget] at h

theorem visitAll_false_settled (adj : JsObject)
    (visit : String → DfsState → Outcome (Bool × DfsState))
    (hc : ∀ v st st', visit v st = Outcome.returned (false, st') → Settled adj st →
      Settled adj st' ∧ Finished st' v)
    (hf : ∀ v st st', visit v st = Outcome.returned (false, st') → FalseFrame v st st') :
    ∀ (nodes : List Node) (st st' : DfsState),
      visitAll visit nodes st = Outcome.returned st' → st'.hasCycles = false →
      st.recStack = [] → Settled adj st →
      st'.recStack = [] ∧ st.visited ⊆ st'.visited ∧ Settled adj st' ∧
        ∀ n ∈ nodes, n.id ∈ st'.visited := by
  intro nodes
  induction nodes with
  | nil =>
    intro st st' h _ h2 hS
    simp only [visitAll, Outcome.returned.injEq] at h
    subst h
    exact ⟨h2, fun x hx => hx, hS, by simp⟩
  | cons n rest ih =>
    intro st st' h h1 h2 hS
    simp only [visitAll] at h
    split_ifs at h with hvis
    · obtain ⟨g1, g2, g3, g4⟩ := ih st st' h h1 h2 hS
      refine ⟨g1, g2, g3, ?_⟩
      intro m hm
      rcases List.mem_cons.mp hm with rfl | hm
      · exact g2 hvis
      · exact g4 m hm
    · cases hn : visit n.id st with
      | threw t => simp [hn] at h
      | returned r =>
        obtain ⟨b, st1⟩ := r
        cases b with
        | true =>
          simp only [hn, Outcome.returned.injEq] at h
          subst h
          simp at h1
        | false =>
          simp only [hn] at h
          obtain ⟨f1, _, f3, f4⟩ := hf n.id st st1 hn
          obtain ⟨hS1, _⟩ := hc n.id st st1 hn hS
          obtain ⟨g1, g2, g3, g4⟩ := ih st1 st' h h1 (f1.trans h2) hS1
          refine ⟨g1, fun x hx => g2 (f3 hx), g3, ?_⟩
          intro m hm
          rcases List.mem_cons.mp hm with rfl | hm
          · exact g2 f4
          · exact g4 m hm

/-! ## The adjacency object built by `dagStatus` -/

theorem getOwn_setOwn {α : Type} (o : List (String × α)) (k : String) (v : α)
    (q : String) :
    getOwn (setOwn o k v) q = if k = q then some v else getOwn o q := by
  induction o with
  | nil => simp [setOwn, getOwn]
  | cons p rest ih =>
    obtain ⟨k', v'⟩ := p
    by_cases h : k' = k
    · subst h
      by_cases hq : k' = q <;> simp [setOwn, getOwn, hq]
    · by_cases hq : k' = q
      · subst hq
        have : ¬ k = k' := fun e => h e.symm
        simp [setOwn, getOwn, h, this]
      · simp [setOwn, getOwn, h, hq, ih]

theorem objRead_array_within (o : JsObject) (T : List String)
    (h : ArraysWithin o T) (k : String) (ns : List String)
    (hr : objRead o k = Lookup.array ns) : ∀ n ∈ ns, n ∈ T := by
  unfold objRead at hr
  cases hown : getOwn o.own k with
  | some a =>
    simp only [hown, Lookup.array.injEq] at hr
    subst hr
    exact h.1 k a hown
  | none =>
    simp only [hown] at hr
    split_ifs at hr with h1 h2
    · cases hp : o.proto with
      | none => simp [hp] at hr
      | some p =>
        simp only [hp, Lookup.array.injEq] at hr
        subst hr
        exact h.2 p hp
    · cases hp : o.proto <;> simp [hp] at hr

theorem arraysWithin_objAssignEmpty (o : JsObject) (T : List String)
    (h : ArraysWithin o T) (k : String) : ArraysWithin (objAssignEmpty o k) T := by
  unfold objAssignEmpty
  split_ifs with hk
  · refine ⟨h.1, ?_⟩
    intro ns hns n hn
    simp only [Option.some.injEq] at hns
    subst hns
    simp at hn
  · refine ⟨?_, h.2⟩
    intro q ns hq n hn
    simp only [getOwn_setOwn] at hq
    split_ifs at hq with hkq
    · simp only [Option.some.injEq] at hq
      subst hq
      simp at hn
    · exact h.1 q ns hq n hn

theorem arraysWithin_foldl_nodes (T : List String) :
    ∀ (nodes : List Node) (o : JsObject), ArraysWithin o T →
      ArraysWithin (nodes.foldl (fun adj node => objAssignEmpty adj node.id) o) T := by
  intro nodes
  induction nodes with
  | nil => intro o h; exact h
  | cons n rest ih =>
    intro o h
    exact ih _ (arraysWithin_objAssignEmpty o T h n.id)

theorem arraysWithin_objPush (o : JsObject) (T : List String)
    (h : ArraysWithin o T) (k target : String) (ht : target ∈ T) :
    ArraysWithin (objPush o k target) T := by
  unfold objPush
  cases hown : getOwn o.own k with
  | some a =>
    refine ⟨?_, h.2⟩
    intro q ns hq n hn
    simp only [getOwn_setOwn] at hq
    split_ifs at hq with hkq
    · simp only [Option.some.injEq] at hq
      subst hq
      rcases List.mem_append.mp hn with hn | hn
      · exact h.1 k a hown n hn
      · rw [List.mem_singleton] at hn
        exact hn ▸ ht
    · exact h.1 q ns hq n hn
  | none =>
    cases hp : o.proto with
    | none => exact h
    | some p =>
      refine ⟨h.1, ?_⟩
      intro ns hns n hn
      simp only [Option.some.injEq] at hns
      subst hns
      rcases List.mem_append.mp hn with hn | hn
      · exact h.2 p hp n hn
      · rw [List.mem_singleton] at hn
        exact hn ▸ ht

theorem arraysWithin_addTargets (T : List String) :
    ∀ (edges : List Edge) (o o' : JsObject), ArraysWithin o T →
      (∀ e ∈ edges, e.target ∈ T) → addTargets edges o = Outcome.returned o' →
      ArraysWithin o' T := by
  intro edges
  induction edges with
  | nil =>
    intro o o' h _ hr
    simp only [addTargets, Outcome.returned.injEq] at hr
    exact hr ▸ h
  | cons e rest ih =>
    intro o o' h hT hr
    simp only [addTargets] at hr
    cases hstep : addTarget o e with
    | threw t => simp [hstep] at hr
    | returned o1 =>
      simp only [hstep] at hr
      refine ih o1 o' ?_ (fun e' he' => hT e' (List.mem_cons_of_mem _ he')) hr
      unfold addTarget at hstep
      cases hread : objRead o e.source with
      | array a =>
        simp only [hread, Outcome.returned.injEq] at hstep
        subst hstep
        exact arraysWithin_objPush o T h _ _ (hT e (List.mem_cons_self _ _))
      | undefined =>
        simp only [hread, Outcome.returned.injEq] at hstep
        exact hstep ▸ h
      | inherited => simp [hread] at hstep
      | unmodelled => simp [hread] at hstep

/-- Whatever the snapshot, every array of the adjacency object holds edge
targets only. -/
theorem arraysWithin_buildAdjacency (nodes : List Node) (edges : List Edge)
    (adj : JsObject) (h : buildAdjacency nodes edges = Outcome.returned adj) :
    ArraysWithin adj (edges.map (fun e => e.target)) := by
  unfold buildAdjacency at h
  refine arraysWithin_addTargets _ edges _ adj
    (arraysWithin_foldl_nodes _ nodes _ ?_)
    (fun e he => List.mem_map_of_mem (fun e => e.target) he) h
  exact ⟨fun k ns hk => by simp [getOwn] at hk, fun ns hns => by simp at hns⟩

theorem addTargets_threw (edges : List Edge) :
    ∀ (o : JsObject) (t : Thrown), addTargets edges o = Outcome.threw t →
      t ≠ Thrown.rangeError := by
  induction edges with
  | nil => intro o t h; simp [addTargets] at h
  | cons e rest ih =>
    intro o t h
    simp only [addTargets] at h
    cases hstep : addTarget o e with
    | returned o1 =>
      simp only [hstep] at h
      exact ih o1 t h
    | threw t' =>
      simp only [hstep, Outcome.threw.injEq] at h
      subst h
      unfold addTarget at hstep
      cases hread : objRead o e.source <;> simp [hread] at hstep <;>
        (subst hstep; decide)

/-- The traversal is no deeper than the number of node ids and edge targets:
with room for `nodes.length + edges.length + 1` nested calls the validator
never exhausts the call stack, whatever the snapshot. -/
theorem dagStatusWith_no_rangeError (nodes : List Node) (edges : List Edge)
    (stackDepth : Nat) (hd : nodes.length + edges.length + 1 ≤ stackDepth) :
    dagStatusWith stackDepth nodes edges ≠ Outcome.threw Thrown.rangeError := by
  unfold dagStatusWith
  cases hb : buildAdjacency nodes edges with
  | threw t =>
    simp only [ne_eq, Outcome.threw.injEq]
    exact addTargets_threw edges _ t hb
  | returned adj =>
    simp only
    have hw := arraysWithin_buildAdjacency nodes edges adj hb
    have hU : ∀ u ns, objRead adj u = Lookup.array ns →
        ∀ n ∈ ns, n ∈ nodeIds nodes ++ edges.map (fun e => e.target) :=
      fun u ns hr n hn =>
        List.mem_append_right _ (objRead_array_within adj _ hw u ns hr n hn)
    have hlen := unvisited_le_length
      (nodeIds nodes ++ edges.map (fun e => e.target)) []
    simp only [List.length_append, List.length_map, nodeIds] at hlen
    have hv := visitAll_no_rangeError (dfsVisit adj stackDepth)
      (nodeIds nodes ++ edges.map (fun e => e.target)) stackDepth
      (dfsVisit_no_rangeError adj _ hU stackDepth)
      (dfsVisit_false_frame adj stackDepth) nodes
      { visited := [], recStack := [], hasCycles := false }
      (fun n hn => List.mem_append_left _ (List.mem_map_of_mem (fun n => n.id) hn))
      (by
        show unvisited _ [] < _
        simp only [nodeIds]
        omega)
    cases hvis : visitAll (dfsVisit adj stackDepth) nodes
        { visited := [], recStack := [], hasCycles := false } with
    | threw t =>
      rw [hvis] at hv
      simpa using hv
    | returned st => simp

/-! ## Snapshots without inherited names -/

theorem mem_endpointIds (edges : List Edge) (x : String) :
    x ∈ endpointIds edges ↔ ∃ e ∈ edges, e.source = x ∨ e.target = x := by
  induction edges with
  | nil => simp [endpointIds]
  | cons e rest ih =>
    simp only [endpointIds, List.mem_cons, ih, exists_eq_or_imp]
    constructor
    · rintro (h | h | h)
      · exact Or.inl (Or.inl h.symm)
      · exact Or.inl (Or.inr h.symm)
      · exact Or.inr h
    · rintro ((h | h) | h)
      · exact Or.inl h.symm
      · exact Or.inr (Or.inl h.symm)
      · exact Or.inr (Or.inr h)

theorem objRead_of_safe (o : JsObject) (k : String) (hp : o.proto = none)
    (hk : k ∉ objectPrototypeKeys) :
    objRead o k =
      match getOwn o.own k with
      | some a => Lookup.array a
      | none => Lookup.undefined := by
  have hne : k ≠ "__proto__" := by
    rintro rfl
    exact hk (by decide)
  unfold objRead
  cases getOwn o.own k with
  | some a => rfl
  | none => simp [hne, hk, hp]

theorem objRead_array_iff (o : JsObject) (k : String) (ns : List String)
    (hp : o.proto = none) :
    objRead o k = Lookup.array ns ↔ getOwn o.own k = some ns := by
  unfold objRead
  cases getOwn o.own k with
  | some a => simp
  | none =>
    simp only [hp]
    split_ifs <;> simp

theorem foldl_objAssignEmpty (v : String) :
    ∀ (nodes : List Node) (o : JsObject), (∀ n ∈ nodes, n.id ≠ "__proto__") →
      (nodes.foldl (fun adj node => objAssignEmpty adj node.id) o).proto = o.proto ∧
      getOwn (nodes.foldl (fun adj node => objAssignEmpty adj node.id) o).own v =
        if v ∈ nodeIds nodes then some [] else getOwn o.own v := by
  intro nodes
  induction nodes with
  | nil => intro o _; simp [nodeIds]
  | cons n rest ih =>
    intro o hne
    have hn : n.id ≠ "__proto__" := hne n (List.mem_cons_self _ _)
    obtain ⟨h1, h2⟩ := ih (objAssignEmpty o n.id)
      (fun m hm => hne m (List.mem_cons_of_mem _ hm))
    rw [List.foldl_cons]
    refine ⟨?_, ?_⟩
    · rw [h1]
      simp [objAssignEmpty, hn]
    · rw [h2]
      simp only [objAssignEmpty, if_neg hn, getOwn_setOwn, nodeIds, List.map_cons,
        List.mem_cons]
      by_cases hr : v ∈ List.map (fun n => n.id) rest
      · simp [hr]
      · by_cases hv : n.id = v
        · simp [hv]
        · have hv' : ¬ v = n.id := fun e => hv e.symm
          simp [hr, hv, hv']

theorem addTargets_of_safe (v : String) :
    ∀ (edges : List Edge) (o : JsObject), o.proto = none →
      (∀ e ∈ edges, e.source ∉ objectPrototypeKeys) →
      ∃ o', addTargets edges o = Outcome.returned o' ∧ o'.proto = none ∧
        getOwn o'.own v =
          (getOwn o.own v).map (fun targets =>
            targets ++ (edges.filter (fun e => decide (e.source = v))).map
              (fun e => e.target)) := by
  intro edges
  induction edges with
  | nil => intro o hp _; exact ⟨o, rfl, hp, by simp⟩
  | cons e rest ih =>
    intro o hp hs
    have hsrc := hs e (List.mem_cons_self _ _)
    have hrest : ∀ e' ∈ rest, e'.source ∉ objectPrototypeKeys :=
      fun e' he' => hs e' (List.mem_cons_of_mem _ he')
    have hread := objRead_of_safe o e.source hp hsrc
    cases hown : getOwn o.own e.source with
    | none =>
      rw [hown] at hread
      have hstep : addTarget o e = Outcome.returned o := by
        simp [addTarget, hread]
      obtain ⟨o', h1, h2, h3⟩ := ih o hp hrest
      refine ⟨o', by simp [addTargets, hstep, h1], h2, ?_⟩
      rw [h3]
      by_cases h : e.source = v
      · subst h
        simp [hown]
      · simp [List.filter_cons, h]
    | some a =>
      rw [hown] at hread
      have hstep : addTarget o e =
          Outcome.returned { o with own := setOwn o.own e.source (a ++ [e.target]) } := by
        simp [addTarget, hread, objPush, hown]
      obtain ⟨o', h1, h2, h3⟩ :=
        ih { o with own := setOwn o.own e.source (a ++ [e.target]) } hp hrest
      refine ⟨o', by simp [addTargets, hstep, h1], h2, ?_⟩
      rw [h3]
      simp only [getOwn_setOwn]
      by_cases h : e.source = v
      · subst h
        simp [hown, List.filter_cons]
      · simp [h, List.filter_cons]

/-- On a snapshot without inherited names the adjacency object is built
without a throw, keeps `Object.prototype` as its prototype and maps every node
id to the targets of the edges that leave it, in edge order; it has no other
own property. -/
theorem buildAdjacency_of_safe (nodes : List Node) (edges : List Edge)
    (hsafe : SafeIds nodes edges) :
    ∃ adj, buildAdjacency nodes edges = Outcome.returned adj ∧ adj.proto = none ∧
      ∀ v, getOwn adj.own v =
        if v ∈ nodeIds nodes then
          some ((edges.filter (fun e => decide (e.source = v))).map
            (fun e => e.target))
        else none := by
  have hnodes : ∀ n ∈ nodes, n.id ≠ "__proto__" := by
    intro n hn heq
    exact hsafe n.id
      (List.mem_append_left _ (List.mem_map_of_mem (fun n => n.id) hn))
      (by rw [heq]; decide)
  have hsrc : ∀ e ∈ edges, e.source ∉ objectPrototypeKeys := fun e he =>
    hsafe e.source (List.mem_append_right _
      ((mem_endpointIds edges e.source).mpr ⟨e, he, Or.inl rfl⟩))
  have hfold := fun v => foldl_objAssignEmpty v nodes { own := [], proto := none } hnodes
  obtain ⟨adj, h1, h2, _⟩ := addTargets_of_safe "" edges _ (hfold "").1 hsrc
  refine ⟨adj, h1, h2, ?_⟩
  intro v
  obtain ⟨adj', h1', _, h3'⟩ := addTargets_of_safe v edges _ (hfold v).1 hsrc
  have hadj : adj' = adj := by
    have := h1'.symm.trans h1
    simpa using this
  subst hadj
  rw [h3', (hfold v).2]
  by_cases hv : v ∈ nodeIds nodes
  · simp [hv]
  · simp [hv, getOwn]

theorem arc_of_safe (nodes : List Node) (edges : List Edge) (adj : JsObject)
    (hp : adj.proto = none)
    (hown : ∀ v, getOwn adj.own v =
      if v ∈ nodeIds nodes then
        some ((edges.filter (fun e => decide (e.source = v))).map (fun e => e.target))
      else none)
    (u w : String) :
    Arc adj u w ↔ u ∈ nodeIds nodes ∧ EdgeRel edges u w := by
  unfold Arc EdgeRel
  constructor
  · rintro ⟨ns, hget, hw⟩
    rw [objRead_array_iff adj u ns hp, hown] at hget
    split_ifs at hget with hu
    simp only [Option.some.injEq] at hget
    subst hget
    rw [List.mem_map] at hw
    obtain ⟨e, he, rfl⟩ := hw
    rw [List.mem_filter] at he
    exact ⟨hu, e, he.1, by simpa using he.2, rfl⟩
  · rintro ⟨hu, e, he, hsrc, htgt⟩
    refine ⟨(edges.filter (fun e => decide (e.source = u))).map
      (fun e => e.target), ?_, ?_⟩
    · rw [objRead_array_iff adj u _ hp, hown, if_pos hu]
    · rw [List.mem_map]
      exact ⟨e, List.mem_filter.mpr ⟨he, by simpa using hsrc⟩, htgt⟩

/-! ## The report on snapshots without inherited names -/

theorem transGen_of_chain (R : String → String → Prop) (edges : List Edge)
    (ids : List String)
    (hR : ∀ u w, u ∈ ids → EdgeRel edges u w → R u w) (w : String) :
    ∀ (rest : List String) (v : String),
      (∀ x ∈ v :: rest, x ∈ ids) →
      List.Chain (EdgeRel edges) v (rest ++ [w]) → Relation.TransGen R v w := by
  intro rest
  induction rest with
  | nil =>
    intro v hv hch
    simp only [List.nil_append, List.chain_cons, List.Chain.nil, and_true] at hch
    exact Relation.TransGen.single (hR v w (hv v (List.mem_cons_self _ _)) hch)
  | cons a rest ih =>
    intro v hv hch
    simp only [List.cons_append, List.chain_cons] at hch
    exact Relation.TransGen.head (hR v a (hv v (List.mem_cons_self _ _)) hch.1)
      (ih a (fun x hx => hv x (List.mem_cons_of_mem _ hx)) hch.2)

theorem chain_of_transGen (edges : List Edge) (ids : List String)
    (R : String → String → Prop)
    (hR : ∀ u w, R u w → u ∈ ids ∧ EdgeRel edges u w) {a b : String}
    (h : Relation.TransGen R a b) :
    ∃ rest, (∀ x ∈ a :: rest, x ∈ ids) ∧
      List.Chain (EdgeRel edges) a (rest ++ [b]) := by
  induction h using Relation.TransGen.head_induction_on with
  | base hab =>
    refine ⟨[], ?_, by simpa using (hR _ _ hab).2⟩
    intro x hx
    rw [List.mem_singleton] at hx
    exact hx ▸ (hR _ _ hab).1
  | ih hac _ ih =>
    obtain ⟨rest, hids, hrest⟩ := ih
    refine ⟨_ :: rest, ?_, by simpa using ⟨(hR _ _ hac).2, hrest⟩⟩
    intro x hx
    rcases List.mem_cons.mp hx with rfl | hx
    · exact (hR _ _ hac).1
    · exact hids x hx

theorem settled_initial (adj : JsObject) :
    Settled adj { visited := [], recStack := [], hasCycles := false } := by
  intro b hb
  exact absurd hb.1 (by simp)

/-- A traversal that returns has set `hasCycles` exactly when the adjacency
object has a cycle, provided only node ids have successors. -/
theorem hasCycles_iff (adj : JsObject) (d : Nat) (nodes : List Node)
    (st : DfsState)
    (hkeys : ∀ c n, Arc adj c n → c ∈ nodeIds nodes)
    (hst : visitAll (dfsVisit adj d) nodes
        { visited := [], recStack := [], hasCycles := false } = Outcome.returned st) :
    st.hasCycles = true ↔ ∃ c, Relation.TransGen (Arc adj) c c := by
  constructor
  · intro h
    exact visitAll_hasCycles_cycle _ _ (dfsVisit_true_cycle _ _)
      (dfsVisit_false_frame _ _) nodes _ st hst rfl rfl h
  · rintro ⟨c, hc⟩
    by_contra hne
    have hfalse : st.hasCycles = false := by simpa using hne
    obtain ⟨g1, _, g3, g4⟩ := visitAll_false_settled _ _ (dfsVisit_false_settled _ _)
      (dfsVisit_false_frame _ _) nodes _ st hst hfalse rfl (settled_initial _)
    obtain ⟨n, hn, _⟩ := Relation.TransGen.head'_iff.mp hc
    obtain ⟨m, hm, rfl⟩ := List.mem_map.mp (hkeys c n hn)
    have hfin : Finished st m.id := ⟨g4 m hm, by rw [g1]; simp⟩
    exact (g3 _ hfin).2 hc

/-- The fields of a returned report that do not depend on the traversal. -/
theorem dagStatusWith_returned (stackDepth : Nat) (nodes : List Node)
    (edges : List Edge) (r : DagStatus)
    (h : dagStatusWith stackDepth nodes edges = Outcome.returned r) :
    r.nodeCount = nodes.length ∧ r.edgeCount = edges.length ∧
      r.hasMinimumNodes = decide (nodes.length ≥ 2) ∧
      r.allNodesConnected =
        (if nodes.length ≥ 2 then
          decide ((connectedNodes edges).length = nodes.length) else true) ∧
      r.isValidDAG = (r.hasMinimumNodes && r.noCycles && r.allNodesConnected) := by
  unfold dagStatusWith at h
  cases hb : buildAdjacency nodes edges with
  | threw t => simp [hb] at h
  | returned adj =>
    simp only [hb] at h
    cases hv : visitAll (dfsVisit adj stackDepth) nodes
        { visited := [], recStack := [], hasCycles := false } with
    | threw t => simp [hv] at h
    | returned st =>
      simp only [hv, Outcome.returned.injEq] at h
      subst h
      exact ⟨rfl, rfl, rfl, rfl, rfl⟩

/-- On a snapshot without inherited names and with room on the call stack the
validator returns a report, and `noCycles` is false exactly when ids of nodes
form a directed cycle. -/
theorem dagStatusWith_of_safe (nodes : List Node) (edges : List Edge)
    (stackDepth : Nat) (hsafe : SafeIds nodes edges)
    (hd : nodes.length + edges.length + 1 ≤ stackDepth) :
    ∃ r, dagStatusWith stackDepth nodes edges = Outcome.returned r ∧
      (r.noCycles = false ↔
        ∃ v rest, (∀ x ∈ v :: rest, x ∈ nodeIds nodes) ∧
          List.Chain (EdgeRel edges) v (rest ++ [v])) := by
  obtain ⟨adj, hb, hp, hown⟩ := buildAdjacency_of_safe nodes edges hsafe
  have harc := arc_of_safe nodes edges adj hp hown
  have hw := arraysWithin_buildAdjacency nodes edges adj hb
  have hU : ∀ u ns, objRead adj u = Lookup.array ns →
      ∀ n ∈ ns, n ∈ nodeIds nodes ++ edges.map (fun e => e.target) :=
    fun u ns hr n hn =>
      List.mem_append_right _ (objRead_array_within adj _ hw u ns hr n hn)
  have hsafeU : ∀ k ∈ nodeIds nodes ++ edges.map (fun e => e.target),
      objRead adj k ≠ Lookup.inherited ∧ objRead adj k ≠ Lookup.unmodelled := by
    intro k hk
    have hk' : k ∉ objectPrototypeKeys := by
      rcases List.mem_append.mp hk with hk | hk
      · exact hsafe k (List.mem_append_left _ hk)
      · obtain ⟨e, he, rfl⟩ := List.mem_map.mp hk
        exact hsafe e.target (List.mem_append_right _
          ((mem_endpointIds edges e.target).mpr ⟨e, he, Or.inr rfl⟩))
    rw [objRead_of_safe adj k hp hk']
    cases getOwn adj.own k <;> simp
  have hnodes : ∀ n ∈ nodes, n.id ∈ nodeIds nodes ++ edges.map (fun e => e.target) :=
    fun n hn => List.mem_append_left _ (List.mem_map_of_mem (fun n => n.id) hn)
  have hlen := unvisited_le_length
    (nodeIds nodes ++ edges.map (fun e => e.target)) []
  simp only [List.length_append, List.length_map, nodeIds] at hlen
  have hno := visitAll_no_rangeError (dfsVisit adj stackDepth) _ stackDepth
    (dfsVisit_no_rangeError adj _ hU stackDepth)
    (dfsVisit_false_frame adj stackDepth) nodes
    { visited := [], recStack := [], hasCycles := false } hnodes
    (by
      show unvisited _ [] < _
      simp only [nodeIds]
      omega)
  cases hv : visitAll (dfsVisit adj stackDepth) nodes
      { visited := [], recStack := [], hasCycles := false } with
  | threw t =>
    have := visitAll_threw_rangeError (dfsVisit adj stackDepth) _
      (dfsVisit_threw_rangeError adj _ hU hsafeU stackDepth) nodes _ t hnodes hv
    subst this
    exact absurd hv hno
  | returned st =>
    have hcyc := hasCycles_iff adj stackDepth nodes st
      (fun c n h => ((harc c n).mp h).1) hv
    have hr : dagStatusWith stackDepth nodes edges = Outcome.returned
        ⟨decide (nodes.length ≥ 2) && !st.hasCycles &&
            (if nodes.length ≥ 2 then
              decide ((connectedNodes edges).length = nodes.length) else true),
          decide (nodes.length ≥ 2), !st.hasCycles,
          (if nodes.length ≥ 2 then
            decide ((connectedNodes edges).length = nodes.length) else true),
          nodes.length, edges.length⟩ := by
      simp only [dagStatusWith, hb, hv]
    refine ⟨_, hr, ?_⟩
    simp only [Bool.not_eq_false', hcyc]
    constructor
    · rintro ⟨c, hc⟩
      obtain ⟨rest, hids, hch⟩ :=
        chain_of_transGen edges (nodeIds nodes) (Arc adj)
          (fun u w h => (harc u w).mp h) hc
      exact ⟨c, rest, hids, hch⟩
    · rintro ⟨v, rest, hids, hch⟩
      exact ⟨v, transGen_of_chain (Arc adj) edges (nodeIds nodes)
        (fun u w hu h => (harc u w).mpr ⟨hu, h⟩) v rest v hids hch⟩

/-- The connectivity field of a returned report, when node ids are pairwise
distinct and no edge endpoint is dangling: it is true exactly when every node
id is an edge endpoint. -/
theorem allNodesConnected_iff_of_returned (stackDepth : Nat) (nodes : List Node)
    (edges : List Edge) (r : DagStatus)
    (h : dagStatusWith stackDepth nodes edges = Outcome.returned r)
    (hge : 2 ≤ nodes.length) (hnd : (nodeIds nodes).Nodup)
    (hclosed : ∀ e ∈ edges, e.source ∈ nodeIds nodes ∧ e.target ∈ nodeIds nodes) :
    r.allNodesConnected = true ↔
      ∀ n ∈ nodes, ∃ e ∈ edges, e.source = n.id ∨ e.target = n.id := by
  obtain ⟨_, _, _, hconn, _⟩ := dagStatusWith_returned stackDepth nodes edges r h
  rw [hconn, if_pos hge]
  simp only [decide_eq_true_eq]
  have hlen : (nodeIds nodes).length = nodes.length := by simp [nodeIds]
  have hsub : connectedNodes edges ⊆ nodeIds nodes := by
    intro x hx
    obtain ⟨e, he, h | h⟩ := (mem_connectedNodes edges x).mp hx
    · exact h ▸ (hclosed e he).1
    · exact h ▸ (hclosed e he).2
  have hsp := List.subperm_of_subset (nodup_connectedNodes edges) hsub
  constructor
  · intro heq n hn
    have hperm := hsp.perm_of_length_le (by rw [hlen, heq])
    have : n.id ∈ connectedNodes edges :=
      hperm.symm.subset (List.mem_map_of_mem (fun n => n.id) hn)
    exact (mem_connectedNodes edges n.id).mp this
  · intro hall
    have hsub' : nodeIds nodes ⊆ connectedNodes edges := by
      intro x hx
      obtain ⟨n, hn, rfl⟩ := List.mem_map.mp hx
      exact (mem_connectedNodes edges n.id).mpr (hall n hn)
    have h1 := (List.subperm_of_subset hnd hsub').length_le
    have h2 := hsp.length_le
    omega

/-- An instance of the safe-snapshot theorem: nodes A, B, C with the edges
A→B, B→C, C→A are reported with `noCycles = false`. -/
theorem dagStatusWith_of_safe_triangle :
    ∃ r, dagStatusWith 7 [sampleNode "A", sampleNode "B", sampleNode "C"]
        [sampleEdge "A" "B", sampleEdge "B" "C", sampleEdge "C" "A"] =
        Outcome.returned r ∧ r.noCycles = false := by
  obtain ⟨r, hr, hiff⟩ := dagStatusWith_of_safe
    [sampleNode "A", sampleNode "B", sampleNode "C"]
    [sampleEdge "A" "B", sampleEdge "B" "C", sampleEdge "C" "A"] 7
    (by decide) (by decide)
  exact ⟨r, hr, hiff.mpr ⟨"A", ["B", "C"], by decide, by simp [EdgeRel, sampleEdge]⟩⟩

/-! ## The validator on ids that a plain object inherits -/

/-- On node `A` with the edge `A→constructor` the validator throws for every
depth of the call stack: a `RangeError` below two nested calls, a `TypeError`
from two on. -/
theorem dagStatusWith_inherited_target_throws (d : Nat) :
    ∃ t, dagStatusWith d [sampleNode "A"] [sampleEdge "A" "constructor"] =
      Outcome.threw t := by
  match d with
  | 0 => exact ⟨Thrown.rangeError, rfl⟩
  | 1 => exact ⟨Thrown.rangeError, rfl⟩
  | d + 2 => exact ⟨Thrown.typeError, rfl⟩

/-- C1 (code bug). Nodes `[A]`, edges `A→A` and `constructor→A`: the self-loop
is a cycle through a node, yet the validator returns no report.  The source
id `constructor` names no node, but `adjacencyList["constructor"]` reads the
inherited function `Object`, the guard at line 431 passes and `push` at line
432 throws a `TypeError`, whatever the depth of the call stack. -/
theorem dagStatus_throws_despite_cycle (stackDepth : Nat) :
    (∀ x ∈ ["A"], x ∈ nodeIds [sampleNode "A"]) ∧
      List.Chain (EdgeRel [sampleEdge "A" "A", sampleEdge "constructor" "A"])
        "A" ([] ++ ["A"]) ∧
      dagStatusWith stackDepth [sampleNode "A"]
          [sampleEdge "A" "A", sampleEdge "constructor" "A"] =
        Outcome.threw Thrown.typeError ∧
      dagStatus [sampleNode "A"]
        [sampleEdge "A" "A", sampleEdge "constructor" "A"] = none := by
  refine ⟨by decide, by simp [EdgeRel, sampleEdge], rfl, rfl⟩

/-- C2 (code bug). Nodes `[A]`, single edge `A→constructor`: the snapshot has
no closed walk, yet the validator returns no report for any depth of the call
stack.  With room for two nested calls the traversal reaches the id
`constructor`, reads the inherited function `Object` at line 447 and throws a
`TypeError` at line 448. -/
theorem dagStatus_throws_on_acyclic (d : Nat) :
    (¬ ∃ v rest,
        List.Chain (EdgeRel [sampleEdge "A" "constructor"]) v (rest ++ [v])) ∧
      dagStatusWith (d + 2) [sampleNode "A"] [sampleEdge "A" "constructor"] =
        Outcome.threw Thrown.typeError ∧
      (∀ r, dagStatusWith d [sampleNode "A"] [sampleEdge "A" "constructor"] ≠
        Outcome.returned r) ∧
      dagStatus [sampleNode "A"] [sampleEdge "A" "constructor"] = none := by
  refine ⟨?_, rfl, ?_, rfl⟩
  · apply no_closed_walk_of_ranked _ sampleRank
    rintro u w ⟨e, he, rfl, rfl⟩
    simp only [List.mem_singleton] at he
    subst he
    decide
  · intro r h
    obtain ⟨t, ht⟩ := dagStatusWith_inherited_target_throws d
    rw [ht] at h
    exact absurd h (by simp)

/-- C3 (code bug). No node and the single edge `constructor→x`: the snapshot
has fewer than two nodes, yet there is no report whose `allNodesConnected`
could be true: `push` at line 432 throws a `TypeError`, whatever the depth of
the call stack. -/
theorem dagStatus_throws_below_two_nodes (stackDepth : Nat) :
    ([] : List Node).length < 2 ∧
      dagStatusWith stackDepth [] [sampleEdge "constructor" "x"] =
        Outcome.threw Thrown.typeError ∧
      dagStatus [] [sampleEdge "constructor" "x"] = none :=
  ⟨by decide, rfl, rfl⟩

/-- C9 (code bug). One node `A` and the edge `A→constructor`: the snapshot has
at most one node, yet no report with `hasMinimumNodes = false` is returned, for
any depth of the call stack; with room for two nested calls the validator
throws a `TypeError` at line 448. -/
theorem dagStatus_throws_with_one_node (d : Nat) :
    [sampleNode "A"].length ≤ 1 ∧
      dagStatusWith (d + 2) [sampleNode "A"] [sampleEdge "A" "constructor"] =
        Outcome.threw Thrown.typeError ∧
      (∀ r, dagStatusWith d [sampleNode "A"] [sampleEdge "A" "constructor"] ≠
        Outcome.returned r) := by
  refine ⟨by decide, rfl, ?_⟩
  intro r h
  obtain ⟨t, ht⟩ := dagStatusWith_inherited_target_throws d
  rw [ht] at h
  exact absurd h (by simp)

/-- C13 (code bug). Edges `A→constructor`, `B→C`, `C→B`: with the nodes in the
order A, B, C the traversal starts at A and throws a `TypeError`; with the
same nodes in the order B, C, A it finds the cycle B→C→B first and returns a
report with `noCycles = false`.  The outcome depends on the order of the
nodes. -/
theorem dagStatus_depends_on_node_order (d : Nat) :
    List.Perm [sampleNode "B", sampleNode "C", sampleNode "A"]
        [sampleNode "A", sampleNode "B", sampleNode "C"] ∧
      dagStatusWith (d + 3) [sampleNode "A", sampleNode "B", sampleNode "C"]
          [sampleEdge "A" "constructor", sampleEdge "B" "C", sampleEdge "C" "B"] =
        Outcome.threw Thrown.typeError ∧
      dagStatusWith (d + 3) [sampleNode "B", sampleNode "C", sampleNode "A"]
          [sampleEdge "A" "constructor", sampleEdge "B" "C", sampleEdge "C" "B"] =
        Outcome.returned ⟨false, true, false, false, 3, 3⟩ :=
  ⟨(List.perm_append_comm :
      List.Perm ([sampleNode "B", sampleNode "C"] ++ [sampleNode "A"])
        ([sampleNode "A"] ++ [sampleNode "B", sampleNode "C"])), rfl, rfl⟩

/-- C14 (code bug). Nodes A, B and the edge `A→constructor`: neither the
snapshot nor the snapshot with a second copy of that edge gets a report whose
fields could be compared; on both the validator throws a `TypeError` (line
448) once the call stack has room for two nested calls. -/
theorem dagStatus_throws_with_parallel_copy (d : Nat) :
    sampleEdge "A" "constructor" ∈ [sampleEdge "A" "constructor"] ∧
      dagStatusWith (d + 2) [sampleNode "A", sampleNode "B"]
          [sampleEdge "A" "constructor"] = Outcome.threw Thrown.typeError ∧
      dagStatusWith (d + 2) [sampleNode "A", sampleNode "B"]
          ([sampleEdge "A" "constructor"] ++ [sampleEdge "A" "constructor"]) =
        Outcome.threw Thrown.typeError :=
  ⟨by decide, rfl, rfl⟩

/-- C15 (code bug). Nodes A, B (distinct ids) and the single edge `A→X`, where
X is no node: the validator reports `allNodesConnected = true` (and even
`isValidDAG = true`) although node B is the source or target of no edge.  The
set `connectedNodes` holds A and the dangling X, and its size 2 equals the node
count. -/
theorem dagStatus_counts_dangling_endpoint (d : Nat) :
    2 ≤ [sampleNode "A", sampleNode "B"].length ∧
      (nodeIds [sampleNode "A", sampleNode "B"]).Nodup ∧
      dagStatusWith (d + 2) [sampleNode "A", sampleNode "B"] [sampleEdge "A" "X"] =
        Outcome.returned ⟨true, true, true, true, 2, 1⟩ ∧
      connectedNodes [sampleEdge "A" "X"] = ["A", "X"] ∧
      ¬ ∀ n ∈ [sampleNode "A", sampleNode "B"],
        ∃ e ∈ [sampleEdge "A" "X"], e.source = n.id ∨ e.target = n.id :=
  ⟨by decide, by decide, rfl, by decide, by decide⟩

/-- C16 (code bug). The validator is not a total function of the snapshot.
On nodes A, B with the dangling edge `A→constructor` it throws a `TypeError`
for every call stack with room for two nested calls; and on the chain A→B→C a
call stack with room for two nested calls of `dfsVisit` is exhausted
(`RangeError`), while room for three gives the report. -/
theorem dagStatus_not_total (d : Nat) :
    dagStatusWith (d + 2) [sampleNode "A", sampleNode "B"]
        [sampleEdge "A" "constructor"] = Outcome.threw Thrown.typeError ∧
      dagStatusWith 2 [sampleNode "A", sampleNode "B", sampleNode "C"]
          [sampleEdge "A" "B", sampleEdge "B" "C"] =
        Outcome.threw Thrown.rangeError ∧
      dagStatusWith (d + 3) [sampleNode "A", sampleNode "B", sampleNode "C"]
          [sampleEdge "A" "B", sampleEdge "B" "C"] =
        Outcome.returned ⟨true, true, true, true, 3, 2⟩ :=
  ⟨rfl, rfl, rfl⟩

/-! ## Node ids and the closure of the `createNode` listener -/

/-- C7 (code bug). Two `createNode` events that arrive without a re-render in
between are served by the same listener, whose closure still holds the counter
1: both nodes are named `node-1`, while the live counter has gone to 3.  With
the re-render in between the ids are `node-1` and `node-2`. -/
theorem createNode_twice_reuses_id :
    nodeIds (run initialStore
        [Op.addNode "Source" "dataSource", Op.addNode "Sink" "output"]).nodes =
      ["node-1", "node-1"] ∧
      (run initialStore
        [Op.addNode "Source" "dataSource", Op.addNode "Sink" "output"]).nodeIdCounter
        = 3 ∧
      nodeIds (run initialStore
        [Op.addNode "Source" "dataSource", Op.render,
          Op.addNode "Sink" "output"]).nodes = ["node-1", "node-2"] := by
  decide


end PipelineEditor
